import Mathlib

/-!
Verification development for the gfn repository core: the trajectory and
transition data model (gfn/containers/trajectories.py) and the
detailed-balance loss (gfn/losses/detailed_balance.py).

Scalars produced by the tensor library are modelled by the type `FV`
(a finite value over an ordered field, a signed infinity, or NaN), with the
IEEE-style propagation rules that the operations used by the source rely on.
The logarithm and exponential on finite values are abstract parameters
(`SOps`), so the development stays computable and the theorems hold for the
real functions in particular.
-/

namespace GFN

/-- Floating-point style scalar: a finite value, one of the two infinities,
or NaN.  Models the IEEE values the tensor operations in the source produce. -/
inductive FV (α : Type) where
  | fin (x : α)
  | pinf
  | ninf
  | nan
deriving DecidableEq, Repr

/-- Scalar operations left abstract: logarithm and exponential on finite
values of the carrier field. -/
structure SOps (α : Type) where
  rlog : α → α
  rexp : α → α

variable {α : Type} [LinearOrderedField α] {σ : Type} {β γ : Type} {X Y : Type}

/-- Negation with IEEE sign rules on infinities. -/
def FV.neg : FV α → FV α
  | .fin x => .fin (-x)
  | .pinf => .ninf
  | .ninf => .pinf
  | .nan => .nan

/-- Addition with IEEE rules: opposite infinities give NaN, NaN propagates. -/
def FV.add : FV α → FV α → FV α
  | .fin x, .fin y => .fin (x + y)
  | .fin _, .pinf => .pinf
  | .fin _, .ninf => .ninf
  | .pinf, .fin _ => .pinf
  | .ninf, .fin _ => .ninf
  | .pinf, .pinf => .pinf
  | .ninf, .ninf => .ninf
  | .pinf, .ninf => .nan
  | .ninf, .pinf => .nan
  | .nan, _ => .nan
  | _, .nan => .nan

/-- Subtraction, by adding the negation (exact for the IEEE cases used). -/
def FV.sub (a b : FV α) : FV α := a.add b.neg

/-- Square, as used by the loss reduction: both infinities square to plus
infinity and NaN propagates. -/
def FV.sq : FV α → FV α
  | .fin x => .fin (x * x)
  | .pinf => .pinf
  | .ninf => .pinf
  | .nan => .nan

/-- Logarithm: negative finite arguments give NaN, zero gives minus infinity,
plus infinity maps to itself, minus infinity and NaN give NaN. -/
def FV.log (o : SOps α) : FV α → FV α
  | .fin x => if 0 < x then .fin (o.rlog x) else if x = 0 then .ninf else .nan
  | .pinf => .pinf
  | .ninf => .nan
  | .nan => .nan

/-- Exponential: minus infinity maps to zero, plus infinity to itself. -/
def FV.exp (o : SOps α) : FV α → FV α
  | .fin x => .fin (o.rexp x)
  | .pinf => .pinf
  | .ninf => .fin 0
  | .nan => .nan

/-- NaN test, mirroring torch.isnan. -/
def FV.isNaN : FV α → Bool
  | .nan => true
  | _ => false

/-- Sum of a list of scalars, accumulated from zero as a reduction does. -/
def FVsum (l : List (FV α)) : FV α := l.foldl FV.add (.fin 0)

/-- Division of a scalar by a natural count, used by the mean reduction. -/
def FV.divNat : FV α → Nat → FV α
  | .fin x, n => .fin (x / (n : α))
  | .pinf, _ => .pinf
  | .ninf, _ => .ninf
  | .nan, _ => .nan

/-- Mean of a list of scalars; the mean of an empty tensor is NaN in torch. -/
def FVmean (l : List (FV α)) : FV α :=
  if l.isEmpty then .nan else (FVsum l).divNat l.length

/-- Log-softmax of a row of scalars: each entry minus the logarithm of the
sum of exponentials of the row, the mathematical content of
torch.log_softmax along the last dimension. -/
def logSoftmax (o : SOps α) (xs : List (FV α)) : List (FV α) :=
  xs.map (fun x => x.sub ((FVsum (xs.map (FV.exp o))).log o))

/-- Gather of a single entry of a row at an integer index; out-of-range
indices are a runtime error in torch, modelled by none. -/
def gatherOne (row : List (FV α)) (i : Int) : Option (FV α) :=
  if i < 0 then none else row.get? i.toNat

/-- Gather of one entry per row, one index per row, mirroring torch.gather
along the last dimension after the unsqueeze/squeeze pair in the source;
a length mismatch or an out-of-range index is a runtime error (none). -/
def gatherList : List (List (FV α)) → List Int → Option (List (FV α))
  | [], [] => some []
  | r :: rs, j :: js =>
      (gatherOne r j).bind fun v => (gatherList rs js).map fun vs => v :: vs
  | _, _ => none

/-- Row filtered by a parallel boolean mask row (boolean mask indexing of a
single row). -/
def maskRow : List β → List Bool → List β
  | [], _ => []
  | _, [] => []
  | x :: xs, b :: bs => if b then x :: maskRow xs bs else maskRow xs bs

/-- Boolean-mask selection on a two-dimensional row-major grid: torch
flattens in row-major order, so the result is the concatenation of the
per-row masked selections. -/
def maskSelect (grid : List (List β)) (mask : List (List Bool)) : List β :=
  (List.zipWith maskRow grid mask).flatten

/-- Masked assignment: the entries of the base list at the true positions of
the mask are replaced, in order, by the given values.  In torch a count
mismatch is a runtime error; the callers below guard the counts, and the
spill-over cases here keep the base entry. -/
def scatterByMask : List Bool → List β → List β → List β
  | true :: m, v :: vs, _ :: bs => v :: scatterByMask m vs bs
  | true :: m, [], b :: bs => b :: scatterByMask m [] bs
  | false :: m, vs, b :: bs => b :: scatterByMask m vs bs
  | _, _, _ => []

/-- Column i of a row-major grid, with a default for ragged rows (the grids
handled by the source are rectangular, so the default is never read there). -/
def colOf (g : List (List β)) (i : Nat) (d : β) : List β :=
  g.map (fun row => row.getD i d)

/-- Write a single cell of a row-major grid (row r, column c); out-of-range
writes leave the grid unchanged, mirroring that the source never performs
them on well-formed inputs. -/
def setCell (g : List (List β)) (r c : Nat) (v : β) : List (List β) :=
  match g.get? r with
  | some row => g.set r (row.set c v)
  | none => g

/-- Write a prefix of column i of a row-major grid from a list of values:
row t receives the value at position t while values remain, later rows are
unchanged.  Models a slice assignment of the form grid[:k, i] = vals. -/
def writeCol (g : List (List β)) (i : Nat) (vals : List β) : List (List β) :=
  g.mapIdx fun t row =>
    match vals.get? t with
    | some v => row.set i v
    | none => row

/-- Environment capability, as the spec describes it: an action count, the
two sentinel states, and a per-state reward function. -/
structure Env (σ α : Type) where
  n_actions : Nat
  s0 : σ
  sf : σ
  reward : σ → FV α

/-- Sink-state predicate of a state batch entry: equality with the sink
sentinel sf, as the spec defines the sentinel and the source repr uses. -/
def Env.isSink [DecidableEq σ] (e : Env σ α) (s : σ) : Bool := decide (s = e.sf)

/-- Initial-state predicate: equality with the root sentinel s0. -/
def Env.isInit [DecidableEq σ] (e : Env σ α) (s : σ) : Bool := decide (s = e.s0)

/-- Trajectories container (class Trajectories of trajectories.py): a
time-major grid of states (rows are time steps, columns are trajectories), a
time-major grid of integer actions padded with -1, the per-trajectory
termination step, the direction flag, and the three optional cached fields. -/
structure Trajectories (σ α : Type) where
  env : Env σ α
  states : List (List σ)
  actions : List (List Int)
  when_is_done : List Nat
  is_backward : Bool
  _rewards : Option (List (FV α))
  log_pfs : Option (List (FV α))
  log_pbs : Option (List (FV α))

/-- Constructor with every optional tensor argument omitted: the source
defaults states to batch shape (0, 0), actions to shape (0, 0) and
when_is_done to shape (0,), with no cached optional fields. -/
def Trajectories.mkDefault (e : Env σ α) (bk : Bool) : Trajectories σ α :=
  ⟨e, [], [], [], bk, none, none, none⟩

/-- Number of trajectories: the second component of the batch shape of the
states grid, which is the common row width. -/
def Trajectories.n_trajectories (t : Trajectories σ α) : Nat :=
  match t.states with
  | [] => 0
  | r :: _ => r.length

/-- Property max_length of the source: 0 for an empty container, otherwise
the time-axis size of the actions grid. -/
def Trajectories.max_length (t : Trajectories σ α) : Nat :=
  if t.n_trajectories = 0 then 0 else t.actions.length

/-- Property last_states: for each trajectory i the state at time step
when_is_done i minus one. -/
def Trajectories.lastStates (t : Trajectories σ α) : List σ :=
  (List.range t.n_trajectories).map fun i =>
    (t.states.getD (t.when_is_done.getD i 0 - 1) []).getD i t.env.sf

/-- Property rewards of the source: the cached vector when present (after
the shape assertion), otherwise none for backward trajectories and the
environment reward of the last states for forward ones. -/
def Trajectories.rewardsAcc (t : Trajectories σ α) :
    Except String (Option (List (FV α))) :=
  match t._rewards with
  | some r =>
      if r.length = t.n_trajectories then .ok (some r)
      else .error "assert failed: cached rewards shape"
  | none =>
      if t.is_backward then .ok none
      else .ok (some (t.lastStates.map t.env.reward))

/-- Indexing (method getitem of the source, after the int-to-list wrap):
selects the given trajectory columns, truncates the time axis of the states
to the new maximum trajectory length plus one and of the actions to that
length, and slices each optional field in lockstep. -/
def Trajectories.getItem (t : Trajectories σ α) (index : List Nat) :
    Trajectories σ α :=
  let wid := index.map (fun i => t.when_is_done.getD i 0)
  let m := wid.foldr max 0
  let states :=
    (t.states.map (fun row => index.map (fun i => row.getD i t.env.sf))).take (1 + m)
  let actions :=
    (t.actions.map (fun row => index.map (fun i => row.getD i (-1)))).take m
  ⟨t.env, states, actions, wid, t.is_backward,
    t._rewards.map (fun r => index.map (fun i => r.getD i (.fin 0))),
    t.log_pfs.map (fun r => index.map (fun i => r.getD i (.fin 0))),
    t.log_pbs.map (fun r => index.map (fun i => r.getD i (.fin 0)))⟩

/-- Method extend_actions: right-pads the actions time axis with rows of -1
when the max_length property falls short of the required length.  A torch
call with a negative pad size (possible only for a zero-trajectory container
whose actions grid is longer than required) is a runtime error, hence none. -/
def Trajectories.extendActions (t : Trajectories σ α) (required : Nat) :
    Option (Trajectories σ α) :=
  if t.max_length ≥ required then some t
  else if t.actions.length ≤ required then
    let pad : List (List Int) :=
      List.replicate (required - t.actions.length)
        (List.replicate t.n_trajectories (-1))
    some { t with actions := t.actions ++ pad }
  else none

/-- Modelled from the spec: the States container method extend (the file
gfn/containers/states.py is not part of the sources) performs the analogous
time-axis alignment, padding the shorter grid with rows of the
direction-appropriate sentinel and concatenating along the trajectory axis. -/
def statesExtend (e : Env σ α) (bk : Bool) (s1 s2 : List (List σ))
    (n1 n2 : Nat) : List (List σ) :=
  let L := max s1.length s2.length
  let p := if bk then e.s0 else e.sf
  List.zipWith (· ++ ·)
    (s1 ++ List.replicate (L - s1.length) (List.replicate n1 p))
    (s2 ++ List.replicate (L - s2.length) (List.replicate n2 p))

/-- Method extend, written functionally: both operands have their actions
padded to the larger max_length, the states are aligned and concatenated
along the trajectory axis, when_is_done is concatenated, and each optional
field survives only when present on both operands.  A time-axis mismatch of
the two padded actions grids is a torch concatenation error, hence none. -/
def Trajectories.extend (t1 t2 : Trajectories σ α) :
    Option (Trajectories σ α) :=
  let req := max t1.max_length t2.max_length
  (t1.extendActions req).bind fun t1' =>
    (t2.extendActions req).bind fun t2' =>
      if t1'.actions.length = t2'.actions.length then
        some
          ⟨t1.env,
            statesExtend t1.env t1.is_backward t1'.states t2'.states
              t1.n_trajectories t2.n_trajectories,
            List.zipWith (· ++ ·) t1'.actions t2'.actions,
            t1.when_is_done ++ t2.when_is_done,
            t1.is_backward,
            t1._rewards.bind fun a => t2._rewards.map fun b => a ++ b,
            t1.log_pfs.bind fun a => t2.log_pfs.map fun b => a ++ b,
            t1.log_pbs.bind fun a => t2.log_pbs.map fun b => a ++ b⟩
      else none

/-- Body of the per-trajectory loop of revert_backward_trajectories: writes
the exit action at row when_is_done i of column i, the reversed action
prefix below it, and the reversed state prefix of column i. -/
def revertStep (t : Trajectories σ α) (p : List (List Int) × List (List σ))
    (i : Nat) : List (List Int) × List (List σ) :=
  let Ti := t.when_is_done.getD i 0
  let na := setCell p.1 Ti i ((t.env.n_actions : Int) - 1)
  let na := writeCol na i (((colOf t.actions i (-1)).take Ti).reverse)
  let ns := writeCol p.2 i (((colOf t.states i t.env.sf).take (Ti + 1)).reverse)
  (na, ns)

/-- Static method revert_backward_trajectories: asserts the input is
backward (none otherwise), allocates an all-(-1) actions grid one row longer
than the input actions and a fresh states grid of max(when_is_done) + 1 rows
of the sink sentinel, then folds the per-trajectory loop body over the
trajectory indices; the result is flagged forward with when_is_done shifted
by one and no optional fields. -/
def Trajectories.revertBackward (t : Trajectories σ α) :
    Option (Trajectories σ α) :=
  if t.is_backward = false then none
  else
    let N := t.n_trajectories
    let maxT := t.when_is_done.foldr max 0
    let na0 := (t.actions.map (fun row => row.map (fun _ => (-1 : Int)))) ++
      [List.replicate N (-1)]
    let ns0 := List.replicate (maxT + 1) (List.replicate N t.env.sf)
    let r := (List.range N).foldl (revertStep t) (na0, ns0)
    some ⟨t.env, r.2, r.1, t.when_is_done.map (· + 1), false, none, none, none⟩

/-- Modelled from the spec: the Transitions container (the file
gfn/containers/transitions.py is not part of the sources) is the flattened
padding-free view holding parallel sequences of state, action, next state,
done flag, together with the direction flag and an optional reward per
transition. -/
structure Transitions (σ α : Type) where
  env : Env σ α
  states : List σ
  actions : List Int
  is_done : List Bool
  next_states : List σ
  is_backward : Bool
  rewards : Option (List (FV α))

/-- Method to_transitions of the source: cells whose action is not -1 are
selected in row-major order from the states grid without its last row, the
states grid without its first row, and the actions grid; the done flag tests
the sink predicate (forward) or the initial predicate (backward) on the next
states; with cached rewards present, a vector filled with -1 receives, at
the done positions, the concatenation over v of the cached rewards of the
trajectories with when_is_done equal to v.  The torch max over an empty
when_is_done and a masked-assignment count mismatch are runtime errors. -/
def Trajectories.toTransitions [DecidableEq σ] (t : Trajectories σ α) :
    Except String (Transitions σ α) :=
  let mask := t.actions.map (fun row => row.map (fun a => decide (a ≠ -1)))
  let states := maskSelect t.states.dropLast mask
  let next_states := maskSelect (t.states.drop 1) mask
  let actions := maskSelect t.actions mask
  let is_done :=
    if t.is_backward then next_states.map t.env.isInit
    else next_states.map t.env.isSink
  match t._rewards with
  | none =>
      .ok ⟨t.env, states, actions, is_done, next_states, t.is_backward, none⟩
  | some rs =>
      if t.when_is_done.length = 0 then .error "max of empty tensor"
      else
        let maxT := t.when_is_done.foldr max 0
        let gathered :=
          ((List.range (maxT + 1)).map (fun v =>
            ((rs.zip t.when_is_done).filter (fun p => decide (p.2 = v))).map
              (fun p => p.1))).flatten
        if is_done.count true = gathered.length then
          .ok ⟨t.env, states, actions, is_done, next_states, t.is_backward,
            some (scatterByMask is_done gathered
              (actions.map (fun _ => FV.fin (-1))))⟩
        else .error "masked assignment shape mismatch"

/-- Method get_scores of class DetailedBalance (detailed_balance.py),
written functionally over the abstract estimators: pf and pb map a state to
its row of policy logits, logF maps a state to its scalar log-flow.  The
explicit raises of the source become the first two errors; the later errors
model the assert on rewards and the runtime errors torch raises on a gather
or masked-assignment shape mismatch. -/
def get_scores [DecidableEq σ] (o : SOps α) (pf pb : σ → List (FV α))
    (logF : σ → FV α) (tr : Transitions σ α) :
    Except String (List (FV α) × List (FV α) × List (FV α)) :=
  if tr.is_backward then .error "Backward transitions are not supported"
  else
    let sinkMask := tr.states.map tr.env.isSink
    let valid_states := tr.states.filter (fun s => !tr.env.isSink s)
    let valid_actions := tr.actions.filter (fun a => decide (a ≠ -1))
    if valid_states.length ≠ valid_actions.length then
      .error "Something wrong happening with log_pf evaluations"
    else
      match gatherList ((valid_states.map pf).map (logSoftmax o))
          valid_actions with
      | none => .error "gather shape mismatch"
      | some valid_log_pf_actions =>
        let valid_log_F_s := valid_states.map logF
        let preds := List.zipWith FV.add valid_log_pf_actions valid_log_F_s
        let targets0 : List (FV α) := preds.map (fun _ => FV.fin 0)
        if tr.next_states.length ≠ tr.is_done.length then
          .error "boolean mask shape mismatch"
        else
          let valid_next_states :=
            ((tr.next_states.zip tr.is_done).filter (fun p => !p.2)).map
              (fun p => p.1)
          let non_exit_valid_actions := valid_actions.filter
            (fun a => decide (a ≠ (tr.env.n_actions : Int) - 1))
          match gatherList ((valid_next_states.map pb).map (logSoftmax o))
              non_exit_valid_actions with
          | none => .error "gather shape mismatch"
          | some valid_log_pb_actions =>
            if tr.is_done.length ≠ tr.states.length then
              .error "boolean mask shape mismatch"
            else
              let vdone := ((tr.is_done.zip sinkMask).filter
                (fun p => !p.2)).map (fun p => p.1)
              if vdone.count false ≠ valid_log_pb_actions.length then
                .error "masked assignment shape mismatch"
              else
                let targets1 := scatterByMask (vdone.map (!·))
                  valid_log_pb_actions targets0
                let valid_log_F_s_next := valid_next_states.map logF
                if vdone.count false ≠ valid_log_F_s_next.length then
                  .error "masked assignment shape mismatch"
                else
                  let targets2 := scatterByMask (vdone.map (!·))
                    (List.zipWith FV.add (maskRow targets1 (vdone.map (!·)))
                      valid_log_F_s_next) targets1
                  match tr.rewards with
                  | none => .error "assert failed: rewards is not None"
                  | some rews =>
                    if rews.length ≠ tr.states.length then
                      .error "boolean mask shape mismatch"
                    else
                      let valid_rewards := ((rews.zip sinkMask).filter
                        (fun p => !p.2)).map (fun p => p.1)
                      let targets3 := scatterByMask vdone
                        ((maskRow valid_rewards vdone).map (FV.log o))
                        targets2
                      let scores := List.zipWith FV.sub preds targets3
                      .ok (valid_log_pf_actions, targets1, scores)

/-- Method call of class DetailedBalance: the mean of the squared scores,
with an explicit raise when the computed loss is NaN. -/
def dbCall [DecidableEq σ] (o : SOps α) (pf pb : σ → List (FV α))
    (logF : σ → FV α) (tr : Transitions σ α) : Except String (FV α) :=
  match get_scores o pf pb logF tr with
  | .error e => .error e
  | .ok (_, _, scores) =>
      let loss := FVmean (scores.map FV.sq)
      if loss.isNaN then .error "loss is nan" else .ok loss

/-- Gather with a junk default, used only to state specification-side
formulas; the theorems only apply it where the index is in range. -/
def gatherD (row : List (FV α)) (i : Int) : FV α :=
  (gatherOne row i).getD .nan

/-- Specification-side formula for the per-transition residual, following
the words of the claim: pred is the log-softmax of the forward logits at the
state gathered at the action, plus the log-flow at the state; the target is
the log reward of the next state for a terminal transition, and the
log-softmax of the backward logits at the next state gathered at the action,
plus the log-flow at the next state, otherwise.  One residual per transition
of the batch, in order. -/
def specResiduals (o : SOps α) (pf pb : σ → List (FV α)) (logF : σ → FV α)
    (tr : Transitions σ α) : List (FV α) :=
  ((tr.states.zip (tr.actions.zip (tr.next_states.zip tr.is_done))).zip
      (tr.rewards.getD [])).map fun q =>
    let s := q.1.1
    let a := q.1.2.1
    let s2 := q.1.2.2.1
    let d := q.1.2.2.2
    let r := q.2
    let pred := FV.add (gatherD (logSoftmax o (pf s)) a) (logF s)
    let target :=
      if d then FV.log o r
      else FV.add (gatherD (logSoftmax o (pb s2)) a) (logF s2)
    FV.sub pred target

/-- Specification-side reward grid for the transition derivation, following
the words of the claim: the cell at time step t of trajectory i holds the
cached reward of trajectory i when its terminal transition happens there
(t + 1 equals when_is_done i) and the marker -1 otherwise. -/
def specRewardGrid (t : Trajectories σ α) (rs : List (FV α)) :
    List (List (FV α)) :=
  t.actions.mapIdx fun ti row =>
    row.mapIdx fun i _ =>
      if ti + 1 = t.when_is_done.getD i 0 then rs.getD i (.fin 0)
      else FV.fin (-1)

/-- Shape invariant of the claims: the states grid has exactly one more time
step than the actions grid. -/
def shapeInv (t : Trajectories σ α) : Prop :=
  t.states.length = t.actions.length + 1

/-- Specification-side list of selected cells of the transition derivation:
the (time step, trajectory) pairs of the non-padding actions, in the
row-major order of the boolean-mask selection. -/
def selCells (t : Trajectories σ α) : List (Nat × Nat) :=
  maskSelect
    ((List.range t.actions.length).map fun ti =>
      ((List.range (t.when_is_done.length)).map fun i => (ti, i)))
    (t.actions.map (fun row => row.map (fun a => decide (a ≠ -1))))

/-- Carrier of the concrete witnesses: a wrapper around the rationals
whose field operations are written with Rat.divInt so that every concrete
computation reduces definitionally (the standard rational operations are
irreducible). -/
structure Q where
  val : Rat
deriving DecidableEq, Repr

/-- Addition on the witness carrier, via divInt. -/
def qadd (a b : Q) : Q :=
  ⟨Rat.divInt (a.val.num * b.val.den + b.val.num * a.val.den)
    (a.val.den * b.val.den)⟩

/-- Multiplication on the witness carrier, via divInt. -/
def qmul (a b : Q) : Q :=
  ⟨Rat.divInt (a.val.num * b.val.num) (a.val.den * b.val.den)⟩

/-- Inverse on the witness carrier, via divInt. -/
def qinv (a : Q) : Q := ⟨Rat.divInt a.val.den a.val.num⟩

instance : Add Q := ⟨qadd⟩

instance : Mul Q := ⟨qmul⟩

instance : Neg Q := ⟨fun a => ⟨-a.val⟩⟩

instance : Sub Q := ⟨fun a b => qadd a ⟨-b.val⟩⟩

instance : Inv Q := ⟨qinv⟩

instance : Div Q := ⟨fun a b => qmul a (qinv b)⟩

instance : Zero Q := ⟨⟨0⟩⟩

instance : One Q := ⟨⟨1⟩⟩

instance : NatCast Q := ⟨fun n => ⟨n⟩⟩

instance : IntCast Q := ⟨fun i => ⟨i⟩⟩

instance : NNRatCast Q := ⟨fun q => ⟨q⟩⟩

instance : RatCast Q := ⟨fun q => ⟨q⟩⟩

instance : SMul Nat Q := ⟨fun n a => ⟨n • a.val⟩⟩

instance : SMul Int Q := ⟨fun z a => ⟨z • a.val⟩⟩

instance : SMul NNRat Q := ⟨fun q a => ⟨q • a.val⟩⟩

instance : SMul Rat Q := ⟨fun q a => ⟨q • a.val⟩⟩

instance : Pow Q Nat := ⟨fun a n => ⟨a.val ^ n⟩⟩

instance : Pow Q Int := ⟨fun a z => ⟨a.val ^ z⟩⟩

instance : Max Q := ⟨fun a b => ⟨max a.val b.val⟩⟩

instance : Min Q := ⟨fun a b => ⟨min a.val b.val⟩⟩

instance : LinearOrderedField Q :=
  Function.Injective.linearOrderedField Q.val
    (fun a b h => by cases a; cases b; cases h; rfl)
    rfl rfl
    (fun x y => by
      conv_rhs =>
        rw [← Rat.num_divInt_den x.val, ← Rat.num_divInt_den y.val]
      rw [Rat.divInt_add_divInt _ _ (Int.natCast_ne_zero.mpr x.val.den_nz)
        (Int.natCast_ne_zero.mpr y.val.den_nz)]
      rfl)
    (fun x y => by
      conv_rhs =>
        rw [← Rat.num_divInt_den x.val, ← Rat.num_divInt_den y.val]
      rw [Rat.divInt_mul_divInt']
      rfl)
    (fun _ => rfl)
    (fun x y => by
      have h : ((x - y).val : Rat) = x.val + -y.val := by
        conv_rhs =>
          rw [← Rat.num_divInt_den x.val, ← Rat.num_divInt_den (-y.val)]
        rw [Rat.divInt_add_divInt _ _ (Int.natCast_ne_zero.mpr x.val.den_nz)
          (Int.natCast_ne_zero.mpr (-y.val).den_nz)]
        rfl
      rw [h, ← sub_eq_add_neg])
    (fun x => (Rat.inv_def' x.val).symm)
    (fun x y => by
      have h2 : ((qinv y).val : Rat) = (y.val)⁻¹ := (Rat.inv_def' y.val).symm
      have h1 : ((x / y).val : Rat) = x.val * (qinv y).val := by
        conv_rhs =>
          rw [← Rat.num_divInt_den x.val, ← Rat.num_divInt_den (qinv y).val]
        rw [Rat.divInt_mul_divInt']
        rfl
      rw [h1, h2, ← div_eq_mul_inv])
    (fun _ _ => rfl) (fun _ _ => rfl) (fun _ _ => rfl) (fun _ _ => rfl)
    (fun _ _ => rfl) (fun _ _ => rfl)
    (fun _ => rfl) (fun _ => rfl) (fun _ => rfl) (fun _ => rfl)
    (fun _ _ => rfl) (fun _ _ => rfl)

/-- Concrete environment over integer states and rational scalars used by
the witnesses: three actions (exit index 2), root 0, sink -7, and a reward
that only depends on the state value. -/
def envC : Env Int Q :=
  ⟨3, 0, -7, fun s => .fin ((s : Q) + 2)⟩

/-- Concrete scalar operations used by the witnesses; the theorems hold for
every choice, in particular for the real logarithm and exponential. -/
def opsC : SOps Q := ⟨fun x => x - 1, fun _ => 1⟩

/-- Concrete forward batch of three trajectories with termination steps
2, 4 and 1: four action rows and five state rows, padded with -1 and the
sink sentinel, with cached rewards 10, 20 and 30. -/
def trajC : Trajectories Int Q where
  env := envC
  states := [[0, 0, 0], [1, 101, -7], [-7, 102, -7], [-7, 103, -7],
    [-7, -7, -7]]
  actions := [[0, 0, 2], [2, 0, -1], [-1, 0, -1], [-1, 2, -1]]
  when_is_done := [2, 4, 1]
  is_backward := false
  _rewards := some [.fin 10, .fin 20, .fin 30]
  log_pfs := none
  log_pbs := none

/-- Concrete forward-policy logits over integer states used by witnesses. -/
def pfC : Int → List (FV Q) := fun s => [.fin s, .fin (s + 1), .fin (s / 2)]

/-- Concrete backward-policy logits over integer states used by witnesses. -/
def pbC : Int → List (FV Q) := fun s => [.fin 1, .fin (s - 1), .fin 4]

/-- Concrete log-flow estimator over integer states used by witnesses. -/
def logFC : Int → FV Q := fun s => .fin (s * 3)

/-- Concrete one-transition forward batch whose single terminal transition
carries the cached reward zero. -/
def trZero : Transitions Int Q :=
  ⟨envC, [5], [2], [true], [-7], false, some [.fin 0]⟩

/-- Concrete one-transition forward batch whose single terminal transition
carries a negative cached reward. -/
def trNeg : Transitions Int Q :=
  ⟨envC, [5], [2], [true], [-7], false, some [.fin (-1)]⟩

/-- Concrete backward batch of two trajectories with termination steps
2 and 1, with cached rewards present. -/
def bkC : Trajectories Int Q :=
  ⟨envC, [[50, 60], [51, 0], [0, 0]], [[1, 1], [0, -1]], [2, 1], true,
    some [.fin 7, .fin 8], none, none⟩

/-- Concrete one-trajectory backward batch satisfying the shape invariant. -/
def bk1 : Trajectories Int Q :=
  ⟨envC, [[5], [0]], [[1]], [1], true, none, none, none⟩

/-- Concrete one-trajectory forward batch with cached log-probabilities but
no cached rewards. -/
def trajD : Trajectories Int Q :=
  ⟨envC, [[0], [7], [-7]], [[0], [2]], [2], false, none,
    some [.fin 1], some [.fin 2]⟩

/-- Empty transitions batch used as a fallback value of Option accessors. -/
def trEmpty : Transitions Int Q := ⟨envC, [], [], [], [], false, none⟩

/-- Concrete merged batch produced by extending trajC with trajD. -/
def extC : Trajectories Int Q :=
  (trajC.extend trajD).getD (Trajectories.mkDefault envC false)

/-- Concrete forward batch produced by reverting the backward batch bkC. -/
def revC : Trajectories Int Q :=
  (bkC.revertBackward).getD (Trajectories.mkDefault envC false)

/-- Concrete forward batch produced by reverting the backward batch bk1. -/
def revBk1 : Trajectories Int Q :=
  (bk1.revertBackward).getD (Trajectories.mkDefault envC false)

/-- Concrete transitions batch derived from trajC. -/
def trCl : Transitions Int Q :=
  (Trajectories.toTransitions trajC).toOption.getD trEmpty

/-- Concrete forward transitions batch with one valid state and no valid
action, so the two counts of the precondition check disagree. -/
def trMis : Transitions Int Q := ⟨envC, [5], [], [true], [-7], false, none⟩

/-- Concrete backward transitions batch. -/
def trBk : Transitions Int Q := ⟨envC, [5], [1], [false], [3], true, none⟩

/-- NaN test on the ok branch of a loss result: an error carries no value,
so only a returned value can be NaN. -/
def isNaNofOk : Except String (FV α) → Bool
  | .ok v => v.isNaN
  | .error _ => false

/-- Boolean mask of the non-padding actions of a batch, the selection mask
used throughout the transition derivation. -/
def actMask (t : Trajectories σ α) : List (List Bool) :=
  t.actions.map (fun row => row.map (fun a => decide (a ≠ -1)))

/-- Row r of a row-major grid, the empty row when out of range. -/
def gridRow (g : List (List β)) (r : Nat) : List β := g.getD r []

/-- Cell at row r and column c of a row-major grid, with a default. -/
def gridCell (g : List (List β)) (r c : Nat) (d : β) : β :=
  (gridRow g r).getD c d

/-- Well-formedness of a padded forward batch, as the spec states the
padding invariant: the flag is forward, the states grid has one more time
row than the actions grid, every row has the trajectory count as width,
every termination step is between 1 and the action row count, a cell holds
a non-padding action exactly below the termination step of its trajectory,
and a state cell is the sink sentinel exactly from the termination step on. -/
def PaddedBatch [DecidableEq σ] (t : Trajectories σ α) : Prop :=
  t.is_backward = false ∧
  t.states.length = t.actions.length + 1 ∧
  (∀ row ∈ t.states, row.length = t.when_is_done.length) ∧
  (∀ row ∈ t.actions, row.length = t.when_is_done.length) ∧
  (∀ i, i < t.when_is_done.length →
    1 ≤ t.when_is_done.getD i 0 ∧
      t.when_is_done.getD i 0 ≤ t.actions.length) ∧
  (∀ τ i, τ < t.actions.length → i < t.when_is_done.length →
    (((t.actions.getD τ []).getD i (-1) ≠ -1) ↔
      τ < t.when_is_done.getD i 0)) ∧
  (∀ τ i, τ < t.states.length → i < t.when_is_done.length →
    (t.env.isSink ((t.states.getD τ []).getD i t.env.sf) = true ↔
      t.when_is_done.getD i 0 ≤ τ))

/-- Direction-generic padding invariant of a batch grid, parameterized by
the pad test on state cells (the sink sentinel for a forward batch, the
initial state for a backward batch): the states grid has one more time row
than the actions grid, every row has the trajectory count as width, every
termination step is between 1 and the action row count, a cell holds a
non-padding action exactly below the termination step of its trajectory,
and a state cell passes the pad test exactly from the termination step on. -/
def PadGrid (t : Trajectories σ α) (p : σ → Bool) : Prop :=
  t.states.length = t.actions.length + 1 ∧
  (∀ row ∈ t.states, row.length = t.when_is_done.length) ∧
  (∀ row ∈ t.actions, row.length = t.when_is_done.length) ∧
  (∀ i, i < t.when_is_done.length →
    1 ≤ t.when_is_done.getD i 0 ∧
      t.when_is_done.getD i 0 ≤ t.actions.length) ∧
  (∀ τ i, τ < t.actions.length → i < t.when_is_done.length →
    (((t.actions.getD τ []).getD i (-1) ≠ -1) ↔
      τ < t.when_is_done.getD i 0)) ∧
  (∀ τ i, τ < t.states.length → i < t.when_is_done.length →
    (p ((t.states.getD τ []).getD i t.env.sf) = true ↔
      t.when_is_done.getD i 0 ≤ τ))

/-- Well-formedness of a padded backward batch: the flag is backward and
the grid satisfies the padding invariant with the initial-state test. -/
def BackwardPaddedBatch [DecidableEq σ] (t : Trajectories σ α) : Prop :=
  t.is_backward = true ∧ PadGrid t t.env.isInit

/-- Concrete transitions batch derived from the backward batch bkC. -/
def bkCl : Transitions Int Q :=
  (Trajectories.toTransitions bkC).toOption.getD trEmpty

omit [LinearOrderedField α] in
/-- Boolean-mask selection of a row computed over one list equals mapping
over the filtered list. -/
theorem maskRow_map_map (f : X → β) (p : X → Bool) (ys : List X) :
    maskRow (ys.map f) (ys.map p) = (ys.filter p).map f := by
  induction ys with
  | nil => rfl
  | cons y ys ih =>
      by_cases h : p y <;> simp [maskRow, List.filter_cons, h, ih]

omit [LinearOrderedField α] in
/-- Masked assignment of values computed over the filtered list into a base
computed over the full list is pointwise selection. -/
theorem scatter_map_filter (p : X → Bool) (fT g : X → β) (ys : List X) :
    scatterByMask (ys.map p) ((ys.filter p).map fT) (ys.map g) =
      ys.map (fun y => if p y then fT y else g y) := by
  induction ys with
  | nil => rfl
  | cons y ys ih =>
      by_cases h : p y <;> simp [scatterByMask, List.filter_cons, h, ih]

omit [LinearOrderedField α] in
/-- Gather succeeds rowwise when every per-row gather succeeds. -/
theorem gatherList_map (f : X → List (FV α)) (g : X → Int) (h : X → FV α)
    (ys : List X) (H : ∀ y ∈ ys, gatherOne (f y) (g y) = some (h y)) :
    gatherList (ys.map f) (ys.map g) = some (ys.map h) := by
  induction ys with
  | nil => rfl
  | cons y ys ih =>
      simp only [List.map_cons, gatherList, H y (by simp),
        ih (fun z hz => H z (by simp [hz])), Option.bind, Option.map]

omit [LinearOrderedField α] in
/-- Masked assignment distributes over appended masks when the first mask
consumes exactly the first value list and covers the first base list. -/
theorem scatter_append (m1 : List Bool) (m2 : List Bool) (v1 v2 b1 b2 : List β)
    (hc : m1.count true = v1.length) (hl : m1.length = b1.length) :
    scatterByMask (m1 ++ m2) (v1 ++ v2) (b1 ++ b2) =
      scatterByMask m1 v1 b1 ++ scatterByMask m2 v2 b2 := by
  induction m1 generalizing v1 b1 with
  | nil =>
      have h1 : v1 = [] := by
        cases v1 with
        | nil => rfl
        | cons a l => simp at hc
      have h2 : b1 = [] := by
        cases b1 with
        | nil => rfl
        | cons a l => simp at hl
      subst h1; subst h2; simp [scatterByMask]
  | cons b m ih =>
      cases b1 with
      | nil => simp at hl
      | cons x bs =>
          cases b with
          | true =>
              cases v1 with
              | nil => simp at hc
              | cons v vs =>
                  simp only [List.cons_append, scatterByMask, List.append_eq]
                  rw [ih vs bs (by simpa using hc) (by simpa using hl)]
          | false =>
              simp only [List.cons_append, scatterByMask, List.append_eq]
              rw [ih v1 bs (by simpa using hc) (by simpa using hl)]

omit [LinearOrderedField α] in
/-- Claim C8: the rewards accessor returns the cached vector when one is
present, computes the environment reward of the last states for forward
trajectories with no cached vector, and returns the absence marker for
backward trajectories with no cached vector, never a fabricated default. -/
theorem C8_rewards_accessor (t : Trajectories σ α)
    (hlen : ∀ r, t._rewards = some r → r.length = t.n_trajectories) :
    (∀ r, t._rewards = some r → t.rewardsAcc = .ok (some r)) ∧
    (t._rewards = none → t.is_backward = false →
      t.rewardsAcc = .ok (some (t.lastStates.map t.env.reward))) ∧
    (t._rewards = none → t.is_backward = true → t.rewardsAcc = .ok none) := by
  refine ⟨fun r hr => ?_, fun hn hf => ?_, fun hn hb => ?_⟩
  · simp [Trajectories.rewardsAcc, hr, hlen r hr]
  · simp [Trajectories.rewardsAcc, hn, hf]
  · simp [Trajectories.rewardsAcc, hn, hb]

omit [LinearOrderedField α] in
/-- Witness for claim C8: the three branches of the accessor evaluated on
concrete batches, with every hypothesis discharged at the concrete inputs. -/
theorem C8_rewards_accessor_witness :
    trajC.rewardsAcc = .ok (some [.fin 10, .fin 20, .fin 30]) ∧
    ({ trajC with _rewards := none } : Trajectories Int Q).rewardsAcc =
      .ok (some (({ trajC with _rewards := none } :
        Trajectories Int Q).lastStates.map envC.reward)) ∧
    ({ trajC with _rewards := none, is_backward := true } :
      Trajectories Int Q).rewardsAcc = .ok none := by
  refine ⟨(C8_rewards_accessor trajC ?_).1 _ rfl,
    (C8_rewards_accessor _ ?_).2.1 rfl rfl,
    (C8_rewards_accessor _ ?_).2.2 rfl rfl⟩
  · intro r hr
    cases hr; decide
  · intro r hr
    cases hr
  · intro r hr
    cases hr

omit [LinearOrderedField α] in
/-- Claim C9: after extend, each optional field is present exactly when it
was present on both operands, in which case it is the concatenation of the
two fields; if either operand lacks the field the merged field is absent. -/
theorem C9_extend_optional_fields (t1 t2 t' : Trajectories σ α)
    (h : t1.extend t2 = some t') :
    t'._rewards = (t1._rewards.bind fun a => t2._rewards.map fun b => a ++ b) ∧
    t'.log_pfs = (t1.log_pfs.bind fun a => t2.log_pfs.map fun b => a ++ b) ∧
    t'.log_pbs = (t1.log_pbs.bind fun a => t2.log_pbs.map fun b => a ++ b) := by
  simp only [Trajectories.extend, Option.bind_eq_some] at h
  obtain ⟨t1', ho1, t2', ho2, h⟩ := h
  split at h
  · rw [Option.some_inj] at h
    subst h
    exact ⟨rfl, rfl, rfl⟩
  · cases h

omit [LinearOrderedField α] in
/-- Witness for claim C9: extending a batch whose rewards are cached by one
with absent rewards and cached log-probabilities yields absent merged
rewards and absent merged log_pfs, never a default. -/
theorem C9_extend_optional_fields_witness :
    trajC.extend trajD = some extC ∧ extC._rewards = none ∧
    extC.log_pfs = none ∧ extC.log_pbs = none := by
  have h : trajC.extend trajD = some extC := rfl
  obtain ⟨h1, h2, h3⟩ := C9_extend_optional_fields trajC trajD extC h
  exact ⟨h, h1.trans rfl, h2.trans rfl, h3.trans rfl⟩

omit [LinearOrderedField α] in
/-- Row masked by its own pointwise predicate is the filtered row. -/
theorem maskRow_self (p : β → Bool) (ys : List β) :
    maskRow ys (ys.map p) = ys.filter p := by
  have h := maskRow_map_map (fun y => y) p ys
  simpa using h

omit [LinearOrderedField α] in
/-- Grid masked by its own pointwise predicate is the concatenation of the
filtered rows. -/
theorem maskSelect_self (p : β → Bool) (g : List (List β)) :
    maskSelect g (g.map (fun row => row.map p)) =
      (g.map (fun row => row.filter p)).flatten := by
  induction g with
  | nil => rfl
  | cons r rs ih =>
      simp only [maskSelect, List.map_cons, List.zipWith_cons_cons,
        List.flatten_cons, maskRow_self] at ih ⊢
      rw [ih]

omit [LinearOrderedField α] in
/-- Total length of rowwise filters equals the count over the flattening. -/
theorem length_flatten_filter (p : β → Bool) (g : List (List β)) :
    ((g.map (fun row => row.filter p)).flatten).length =
      (g.flatten).countP p := by
  induction g with
  | nil => rfl
  | cons r rs ih =>
      simp [List.countP_append, ← List.countP_eq_length_filter, ih]

/-- Fields of a successful transition derivation, in terms of the selection
mask of the non-padding actions. -/
theorem toTransitions_ok_fields [DecidableEq σ] (t : Trajectories σ α)
    (tr : Transitions σ α) (h : t.toTransitions = .ok tr) :
    tr.states = maskSelect t.states.dropLast (actMask t) ∧
    tr.actions = maskSelect t.actions (actMask t) ∧
    tr.next_states = maskSelect (t.states.drop 1) (actMask t) ∧
    tr.is_done = (if t.is_backward
      then (maskSelect (t.states.drop 1) (actMask t)).map t.env.isInit
      else (maskSelect (t.states.drop 1) (actMask t)).map t.env.isSink) ∧
    tr.is_backward = t.is_backward ∧ tr.env = t.env := by
  rcases hrw : t._rewards with _ | rs <;> cases hb : t.is_backward <;>
    simp only [Trajectories.toTransitions, hrw, hb, if_true, if_false,
      Bool.false_eq_true, ite_true, ite_false] at h ⊢ <;>
  [skip; skip; skip; skip] <;> first
  | (rw [Except.ok.injEq] at h
     subst h
     exact ⟨rfl, rfl, rfl, rfl, rfl, rfl⟩)
  | (split at h
     · cases h
     · split at h
       · rw [Except.ok.injEq] at h
         subst h
         exact ⟨rfl, rfl, rfl, rfl, rfl, rfl⟩
       · cases h)

/-- Claim C4: the number of derived transitions equals the number of
non-padding actions of the batch, and the concrete three-trajectory batch
with termination steps 2, 4 and 1 yields exactly seven transitions. -/
theorem C4_transitions_count [DecidableEq σ] :
    (∀ (t : Trajectories σ α) (tr : Transitions σ α), t.toTransitions = .ok tr →
      tr.actions.length = t.actions.flatten.countP (fun a => decide (a ≠ -1))) ∧
    (trajC.when_is_done = [2, 4, 1] ∧
      (Trajectories.toTransitions trajC).map (fun tr => tr.actions.length) =
        .ok 7) := by
  refine ⟨fun t tr h => ?_, rfl, rfl⟩
  rw [(toTransitions_ok_fields t tr h).2.1]
  rw [show actMask t = t.actions.map (fun row => row.map (fun a => decide (a ≠ -1))) from rfl]
  rw [maskSelect_self, length_flatten_filter]

/-- Witness for claim C4: the general count statement applied to the
concrete batch trajC, whose derivation succeeds. -/
theorem C4_transitions_count_witness :
    Trajectories.toTransitions trajC = .ok trCl ∧
    trCl.actions.length =
      trajC.actions.flatten.countP (fun a => decide (a ≠ -1)) := by
  have h : Trajectories.toTransitions trajC = .ok trCl := rfl
  exact ⟨h, (C4_transitions_count (σ := Int) (α := Q)).1 trajC trCl h⟩

omit [LinearOrderedField α] in
/-- Fields and branch facts of a successful extend_actions call: the states
and termination steps are untouched, and the actions length is unchanged
when the max_length property already reaches the requirement, and exactly
the requirement otherwise. -/
theorem extendActions_spec (t : Trajectories σ α) (req : Nat)
    (t' : Trajectories σ α) (h : t.extendActions req = some t') :
    t'.states = t.states ∧ t'.when_is_done = t.when_is_done ∧
    t'._rewards = t._rewards ∧ t'.log_pfs = t.log_pfs ∧
    t'.log_pbs = t.log_pbs ∧ t'.n_trajectories = t.n_trajectories ∧
    ((req ≤ t.max_length ∧ t'.actions = t.actions) ∨
      (t.max_length < req ∧ t.actions.length ≤ req ∧
        t'.actions.length = req)) := by
  unfold Trajectories.extendActions at h
  split at h
  · rw [Option.some_inj] at h
    subst h
    exact ⟨rfl, rfl, rfl, rfl, rfl, rfl, Or.inl ⟨by omega, rfl⟩⟩
  · split at h
    · rw [Option.some_inj] at h
      subst h
      refine ⟨rfl, rfl, rfl, rfl, rfl, rfl, Or.inr ⟨by omega, by omega, ?_⟩⟩
      simp only [List.length_append, List.length_replicate]
      omega
    · cases h

omit [LinearOrderedField α] in
/-- Time-axis length of the aligned concatenation of two states grids. -/
theorem statesExtend_length (e : Env σ α) (bk : Bool) (s1 s2 : List (List σ))
    (n1 n2 : Nat) :
    (statesExtend e bk s1 s2 n1 n2).length = max s1.length s2.length := by
  simp only [statesExtend, List.length_zipWith, List.length_append,
    List.length_replicate]
  omega

omit [LinearOrderedField α] in
/-- Writing a column prefix preserves the number of rows of a grid. -/
theorem writeCol_length (g : List (List β)) (i : Nat) (vals : List β) :
    (writeCol g i vals).length = g.length := by
  simp [writeCol]

omit [LinearOrderedField α] in
/-- Writing a single cell preserves the number of rows of a grid. -/
theorem setCell_length (g : List (List β)) (r c : Nat) (v : β) :
    (setCell g r c v).length = g.length := by
  unfold setCell
  split <;> simp

omit [LinearOrderedField α] in
/-- Row counts of the two grids built by the revert loop: every loop step
writes into existing rows only, so the initial allocation fixes them. -/
theorem revertBackward_lengths (t : Trajectories σ α)
    (t' : Trajectories σ α) (h : t.revertBackward = some t') :
    t'.states.length = t.when_is_done.foldr max 0 + 1 ∧
    t'.actions.length = t.actions.length + 1 ∧
    t'.when_is_done = t.when_is_done.map (· + 1) ∧
    t'.is_backward = false ∧ t'._rewards = none ∧
    t'.log_pfs = none ∧ t'.log_pbs = none := by
  unfold Trajectories.revertBackward at h
  split at h
  · cases h
  · rw [Option.some_inj] at h
    subst h
    have key : ∀ (l : List Nat) (p : List (List Int) × List (List σ)),
        (l.foldl (revertStep t) p).1.length = p.1.length ∧
        (l.foldl (revertStep t) p).2.length = p.2.length := by
      intro l
      induction l with
      | nil => intro p; exact ⟨rfl, rfl⟩
      | cons j l ih =>
          intro p
          simp only [List.foldl_cons]
          refine ⟨(ih _).1.trans ?_, (ih _).2.trans ?_⟩ <;>
            simp [revertStep, writeCol_length, setCell_length]
    refine ⟨(key _ _).2.trans ?_, (key _ _).1.trans ?_, rfl, rfl, rfl, rfl, rfl⟩
    · simp
    · simp

/-- Claim C5 (amended): the shape invariant states that the states grid has
one more time row than the actions grid; slicing preserves it
unconditionally, extend preserves it whenever it succeeds, and
revert_backward_trajectories does not preserve it: its output has exactly
max(when_is_done) + 1 state rows and one more action row than the input. -/
theorem C5_shape_invariant (t : Trajectories σ α) :
    (∀ idx, shapeInv t → shapeInv (t.getItem idx)) ∧
    (∀ t2 t', shapeInv t → shapeInv t2 → t.extend t2 = some t' →
      shapeInv t') ∧
    (∀ t', t.revertBackward = some t' →
      t'.states.length = t.when_is_done.foldr max 0 + 1 ∧
      t'.actions.length = t.actions.length + 1) := by
  refine ⟨fun idx h1 => ?_, fun t2 t' h1 h2 hx => ?_, fun t' h => ?_⟩
  · unfold shapeInv at h1 ⊢
    simp only [Trajectories.getItem, List.length_take, List.length_map]
    omega
  · simp only [Trajectories.extend, Option.bind_eq_some] at hx
    obtain ⟨t1', ho1, t2', ho2, hx⟩ := hx
    split at hx
    case isFalse => cases hx
    case isTrue hlen =>
      rw [Option.some_inj] at hx
      subst hx
      obtain ⟨hs1, -, -, -, -, -, ha1⟩ := extendActions_spec _ _ _ ho1
      obtain ⟨hs2, -, -, -, -, -, ha2⟩ := extendActions_spec _ _ _ ho2
      unfold shapeInv at h1 h2 ⊢
      simp only [statesExtend_length, List.length_zipWith, hs1, hs2]
      rcases ha1 with ⟨hc1, he1⟩ | ⟨hc1, hb1, he1⟩ <;>
        rcases ha2 with ⟨hc2, he2⟩ | ⟨hc2, hb2, he2⟩
      · have e1 : t1'.actions.length = t.actions.length := by rw [he1]
        have e2 : t2'.actions.length = t2.actions.length := by rw [he2]
        rw [e1, e2] at hlen ⊢
        omega
      · have e1 : t1'.actions.length = t.actions.length := by rw [he1]
        rw [e1] at hlen ⊢
        rw [he2] at hlen ⊢
        omega
      · have e2 : t2'.actions.length = t2.actions.length := by rw [he2]
        rw [he1] at hlen ⊢
        rw [e2] at hlen ⊢
        omega
      · rw [he1] at hlen ⊢
        rw [he2] at hlen ⊢
        omega
  · exact ⟨(revertBackward_lengths t t' h).1,
      (revertBackward_lengths t t' h).2.1⟩

/-- Counterexample for claim C5 as stated: the default-constructed empty
container has zero state rows and zero action rows, violating the
invariant, and reverting a backward batch that satisfies the invariant
yields a batch with equal state and action row counts, violating it. -/
theorem C5_shape_invariant_counterexample :
    ¬ shapeInv (Trajectories.mkDefault envC false) ∧
    shapeInv bk1 ∧ bk1.revertBackward = some revBk1 ∧ ¬ shapeInv revBk1 := by
  refine ⟨?_, ?_, rfl, ?_⟩
  · show ¬ ((Trajectories.mkDefault envC false).states.length =
      (Trajectories.mkDefault envC false).actions.length + 1)
    decide
  · show bk1.states.length = bk1.actions.length + 1
    decide
  · show ¬ (revBk1.states.length = revBk1.actions.length + 1)
    decide

/-- Witness for claim C5: the three preserved or computed shapes evaluated
on concrete batches, with every hypothesis discharged there. -/
theorem C5_shape_invariant_witness :
    shapeInv (trajC.getItem [0]) ∧ shapeInv extC ∧
    (revC.states.length = bkC.when_is_done.foldr max 0 + 1 ∧
      revC.actions.length = bkC.actions.length + 1) := by
  have h1 : shapeInv trajC := by
    show trajC.states.length = trajC.actions.length + 1
    decide
  have h2 : shapeInv trajD := by
    show trajD.states.length = trajD.actions.length + 1
    decide
  exact ⟨(C5_shape_invariant trajC).1 [0] h1,
    (C5_shape_invariant trajC).2.1 trajD extC h1 h2 rfl,
    (C5_shape_invariant bkC).2.2 revC rfl⟩

omit [LinearOrderedField α] in
/-- Unfolding of a grid row through the optional indexing. -/
theorem gridRow_eq (g : List (List β)) (r : Nat) :
    gridRow g r = (g.get? r).getD [] := rfl

omit [LinearOrderedField α] in
/-- Row access through a column-prefix write: while prefix values remain,
the row has its column i entry replaced, later rows are untouched. -/
theorem writeCol_row (g : List (List β)) (j : Nat) (vals : List β)
    (r : Nat) :
    gridRow (writeCol g j vals) r = (match vals.get? r with
      | some v => (gridRow g r).set j v
      | none => gridRow g r) := by
  have hx : (writeCol g j vals).get? r = (g.get? r).map (fun row =>
      match vals.get? r with
      | some v => row.set j v
      | none => row) := by
    unfold writeCol
    simp [List.get?_eq_getElem?, List.getElem?_mapIdx]
  rw [gridRow_eq, hx]
  cases hg : g.get? r with
  | none =>
      cases hv : vals.get? r <;>
        simp [gridRow_eq, ← List.get?_eq_getElem?, hg]
  | some row =>
      cases hv : vals.get? r <;>
        simp [gridRow_eq, ← List.get?_eq_getElem?, hg, hv]

omit [LinearOrderedField α] in
/-- Rows other than the written one are untouched by a single-cell write. -/
theorem setCell_row_ne (g : List (List β)) (r0 c : Nat) (v : β) (r : Nat)
    (hr : r ≠ r0) :
    gridRow (setCell g r0 c v) r = gridRow g r := by
  unfold setCell
  cases hrow : g.get? r0 with
  | none => rfl
  | some row =>
      rw [gridRow_eq, List.get?_set_ne _ _ (fun hx => hr hx.symm),
        gridRow_eq]

omit [LinearOrderedField α] in
/-- The written row of a single-cell write has its column c entry set. -/
theorem setCell_row_self (g : List (List β)) (r0 c : Nat) (v : β) :
    gridRow (setCell g r0 c v) r0 = (gridRow g r0).set c v := by
  unfold setCell
  cases hrow : g.get? r0 with
  | none =>
      rw [gridRow_eq, hrow]
      simp
  | some row =>
      have hlt : r0 < g.length := by
        rw [List.get?_eq_getElem?] at hrow
        exact (List.getElem?_eq_some.mp hrow).1
      rw [gridRow_eq, List.get?_set_eq_of_lt _ (by simpa using hlt),
        gridRow_eq, hrow]
      rfl

omit [LinearOrderedField α] in
/-- Entry of a list at a position other than the written one. -/
theorem getD_set_ne (l : List β) (j i : Nat) (v d : β) (hne : j ≠ i) :
    (l.set j v).getD i d = l.getD i d := by
  rw [show (l.set j v).getD i d = ((l.set j v).get? i).getD d from rfl,
    List.get?_set_ne v l hne]
  rfl

omit [LinearOrderedField α] in
/-- Entry of a list at the written position, when it is in range. -/
theorem getD_set_self (l : List β) (c : Nat) (v d : β)
    (hlt : c < l.length) :
    (l.set c v).getD c d = v := by
  rw [show (l.set c v).getD c d = ((l.set c v).get? c).getD d from rfl,
    List.get?_set_eq_of_lt v hlt]
  rfl

omit [LinearOrderedField α] in
/-- Cell of a grid after writing a column prefix of a possibly different
column: for a foreign column nothing changes. -/
theorem writeCol_cell_ne (g : List (List β)) (j : Nat) (vals : List β)
    (r i : Nat) (d : β) (hne : j ≠ i) :
    gridCell (writeCol g j vals) r i d = gridCell g r i d := by
  simp only [gridCell]
  rw [writeCol_row]
  cases hv : vals.get? r
  · rfl
  · exact getD_set_ne _ _ _ _ _ hne

omit [LinearOrderedField α] in
/-- One loop step of the revert never touches foreign action columns. -/
theorem revertStep_cell_ne (t : Trajectories σ α)
    (p : List (List Int) × List (List σ)) (j r i : Nat) (d : Int)
    (hne : j ≠ i) :
    gridCell (revertStep t p j).1 r i d = gridCell p.1 r i d := by
  simp only [revertStep]
  rw [writeCol_cell_ne _ _ _ _ _ _ hne]
  simp only [gridCell]
  by_cases hr : r = t.when_is_done.getD j 0
  · subst hr
    rw [setCell_row_self, getD_set_ne _ _ _ _ _ hne]
  · rw [setCell_row_ne _ _ _ _ _ hr]

omit [LinearOrderedField α] in
/-- One loop step of the revert preserves the action grid row count. -/
theorem revertStep_len (t : Trajectories σ α)
    (p : List (List Int) × List (List σ)) (j : Nat) :
    (revertStep t p j).1.length = p.1.length := by
  simp [revertStep, writeCol_length, setCell_length]

omit [LinearOrderedField α] in
/-- One loop step of the revert preserves every action row length. -/
theorem revertStep_rowlen (t : Trajectories σ α)
    (p : List (List Int) × List (List σ)) (j r : Nat) :
    (gridRow (revertStep t p j).1 r).length = (gridRow p.1 r).length := by
  simp only [revertStep]
  rw [writeCol_row]
  have hbase : (gridRow (setCell p.1 (t.when_is_done.getD j 0) j
      ((t.env.n_actions : Int) - 1)) r).length = (gridRow p.1 r).length := by
    by_cases hr : r = t.when_is_done.getD j 0
    · subst hr
      rw [setCell_row_self]
      simp
    · rw [setCell_row_ne _ _ _ _ _ hr]
  cases hv : (((colOf t.actions j (-1)).take
      (t.when_is_done.getD j 0)).reverse).get? r
  · exact hbase
  · simpa using hbase

omit [LinearOrderedField α] in
/-- One loop step writes the exit action into its own cell: the later
column-prefix write covers only the rows strictly below when_is_done i. -/
theorem revertStep_cell_self (t : Trajectories σ α)
    (p : List (List Int) × List (List σ)) (i : Nat) (d : Int)
    (hb2 : i < (gridRow p.1 (t.when_is_done.getD i 0)).length) :
    gridCell (revertStep t p i).1 (t.when_is_done.getD i 0) i d =
      (t.env.n_actions : Int) - 1 := by
  simp only [revertStep, gridCell]
  rw [writeCol_row]
  have hvals : (((colOf t.actions i (-1)).take
      (t.when_is_done.getD i 0)).reverse).get? (t.when_is_done.getD i 0) =
      none := by
    rw [List.get?_eq_getElem?, List.getElem?_eq_none_iff]
    simp only [List.length_reverse, List.length_take]
    omega
  rw [hvals, setCell_row_self]
  exact getD_set_self _ _ _ _ hb2

omit [LinearOrderedField α] in
/-- Folding the loop over indices that avoid column i never changes it. -/
theorem fold_cell_notmem (t : Trajectories σ α) (l : List Nat)
    (p : List (List Int) × List (List σ)) (i r : Nat) (d : Int)
    (hni : i ∉ l) :
    gridCell (l.foldl (revertStep t) p).1 r i d = gridCell p.1 r i d := by
  induction l generalizing p with
  | nil => rfl
  | cons j l ih =>
      simp only [List.foldl_cons]
      have hij : j ≠ i := fun hx => hni (hx ▸ List.mem_cons_self j l)
      rw [ih _ (fun hx => hni (List.mem_cons_of_mem j hx)),
        revertStep_cell_ne _ _ _ _ _ _ hij]

omit [LinearOrderedField α] in
/-- After folding the loop over a duplicate-free index list containing i,
the cell at row when_is_done i of column i holds the exit action. -/
theorem fold_exit (t : Trajectories σ α) (l : List Nat)
    (p : List (List Int) × List (List σ)) (i : Nat) (d : Int)
    (hmem : i ∈ l) (hnd : l.Nodup)
    (hb2 : i < (gridRow p.1 (t.when_is_done.getD i 0)).length) :
    gridCell (l.foldl (revertStep t) p).1 (t.when_is_done.getD i 0) i d =
      (t.env.n_actions : Int) - 1 := by
  induction l generalizing p with
  | nil => cases hmem
  | cons j l ih =>
      simp only [List.foldl_cons]
      by_cases hij : i = j
      · subst hij
        have hni : i ∉ l := (List.nodup_cons.mp hnd).1
        rw [fold_cell_notmem _ _ _ _ _ _ hni,
          revertStep_cell_self _ _ _ _ hb2]
      · have hmem2 : i ∈ l := by
          rcases List.mem_cons.mp hmem with hx | hx
          · exact absurd hx hij
          · exact hx
        refine ih _ hmem2 (List.nodup_cons.mp hnd).2 ?_
        rw [revertStep_rowlen]
        exact hb2

omit [LinearOrderedField α] in
/-- Width of a row of the freshly allocated actions grid of the revert. -/
theorem revert_na0_rowlen (t : Trajectories σ α) (r : Nat)
    (hrect : ∀ row ∈ t.actions, row.length = t.n_trajectories)
    (hr : r ≤ t.actions.length) :
    (gridRow ((t.actions.map (fun row => row.map (fun _ => (-1 : Int)))) ++
      [List.replicate t.n_trajectories (-1)]) r).length =
      t.n_trajectories := by
  rcases Nat.lt_or_ge r t.actions.length with hlt | hge
  · rw [gridRow_eq, List.get?_append (by simpa using hlt), List.get?_map]
    cases hrow : t.actions.get? r with
    | none =>
        rw [List.get?_eq_getElem?, List.getElem?_eq_none_iff] at hrow
        omega
    | some row =>
        simpa using hrect row (List.get?_mem hrow)
  · have hr2 : r = t.actions.length := by omega
    subst hr2
    rw [gridRow_eq, List.get?_append_right (by simp)]
    simp

omit [LinearOrderedField α] in
/-- Claim C10: reverting a backward batch yields a batch flagged forward
whose when_is_done is the input when_is_done plus one, whose actions carry
the exit action n_actions - 1 at row when_is_done i of column i, and whose
optional fields rewards, log_pfs and log_pbs are always absent, even when
present on the input. -/
theorem C10_revert_backward (t t2 : Trajectories σ α)
    (h : t.revertBackward = some t2)
    (hrect : ∀ row ∈ t.actions, row.length = t.n_trajectories) :
    t2.is_backward = false ∧
    t2.when_is_done = t.when_is_done.map (· + 1) ∧
    t2._rewards = none ∧ t2.log_pfs = none ∧ t2.log_pbs = none ∧
    ∀ i, i < t.n_trajectories → t.when_is_done.getD i 0 ≤ t.actions.length →
      gridCell t2.actions (t.when_is_done.getD i 0) i 0 =
        (t.env.n_actions : Int) - 1 := by
  obtain ⟨-, -, hwid, hbk, hrw, hpf, hpb⟩ := revertBackward_lengths t t2 h
  refine ⟨hbk, hwid, hrw, hpf, hpb, fun i hi hTi => ?_⟩
  unfold Trajectories.revertBackward at h
  split at h
  · cases h
  · rw [Option.some_inj] at h
    subst h
    exact fold_exit t _ _ i 0 (List.mem_range.mpr hi) (List.nodup_range _)
      (by rw [revert_na0_rowlen t _ hrect hTi]; exact hi)

/-- Witness for claim C10: the revert of the concrete backward batch bkC,
whose rewards are cached, evaluated at both trajectories. -/
theorem C10_revert_backward_witness :
    bkC.revertBackward = some revC ∧ revC.is_backward = false ∧
    revC.when_is_done = bkC.when_is_done.map (· + 1) ∧
    revC._rewards = none ∧ revC.log_pfs = none ∧ revC.log_pbs = none ∧
    gridCell revC.actions 2 0 0 = 2 ∧ gridCell revC.actions 1 1 0 = 2 := by
  have h : bkC.revertBackward = some revC := rfl
  obtain ⟨h1, h2, h3, h4, h5, h6⟩ := C10_revert_backward bkC revC h
    (by decide)
  refine ⟨h, h1, h2, h3, h4, h5, ?_, ?_⟩
  · have := h6 0 (by decide) (by decide)
    simpa using this
  · have := h6 1 (by decide) (by decide)
    simpa using this

omit [LinearOrderedField α] in
/-- Count of true entries of a pointwise boolean image. -/
theorem count_true_map (p : β → Bool) (l : List β) :
    ((l.map p).count true) = l.countP p := by
  induction l with
  | nil => rfl
  | cons x xs ih =>
      cases hx : p x <;> simp [List.count_cons, List.countP_cons, hx, ih]

omit [LinearOrderedField α] in
/-- Mapping commutes with masking a row. -/
theorem map_maskRow (f : β → γ) (xs : List β) (bs : List Bool) :
    (maskRow xs bs).map f = maskRow (xs.map f) bs := by
  induction xs generalizing bs with
  | nil => cases bs <;> rfl
  | cons x xs ih =>
      cases bs with
      | nil => rfl
      | cons b bs => cases b <;> simp [maskRow, ih]

omit [LinearOrderedField α] in
/-- Every entry of a list of naturals is at most its running maximum. -/
theorem foldr_max_bound (l : List Nat) (x : Nat) (hx : x ∈ l) :
    x ≤ l.foldr max 0 := by
  induction l with
  | nil => cases hx
  | cons a l ih =>
      rcases List.mem_cons.mp hx with h | h
      · subst h
        exact le_max_left _ _
      · exact le_trans (ih h) (le_max_right _ _)

omit [LinearOrderedField α] in
/-- The running maximum of a list of naturals is at most any upper bound. -/
theorem foldr_max_le (l : List Nat) (b : Nat) (hb : ∀ x ∈ l, x ≤ b) :
    l.foldr max 0 ≤ b := by
  induction l with
  | nil => exact Nat.zero_le b
  | cons a l ih =>
      simp only [List.foldr_cons]
      exact max_le (hb a (by simp)) (ih (fun x hx => hb x (by simp [hx])))

omit [LinearOrderedField α] in
/-- Masked assignment over flattened rows is the flattening of the rowwise
masked assignments, when each row consumes exactly its own values. -/
theorem scatter_flatten_rows (D : Nat → List Bool) (G B R : Nat → List γ)
    (L : List Nat)
    (hc : ∀ τ ∈ L, (D τ).count true = (G τ).length)
    (hl : ∀ τ ∈ L, (D τ).length = (B τ).length)
    (hr : ∀ τ ∈ L, scatterByMask (D τ) (G τ) (B τ) = R τ) :
    scatterByMask ((L.map D).flatten) ((L.map G).flatten)
      ((L.map B).flatten) = (L.map R).flatten := by
  induction L with
  | nil => rfl
  | cons τ L ih =>
      simp only [List.map_cons, List.flatten_cons]
      rw [scatter_append _ _ _ _ _ _ (hc τ (by simp)) (hl τ (by simp)),
        hr τ (by simp),
        ih (fun x hx => hc x (by simp [hx])) (fun x hx => hl x (by simp [hx]))
          (fun x hx => hr x (by simp [hx]))]

omit [LinearOrderedField α] in
/-- Rows beyond a bound contribute nothing to a flattened range image. -/
theorem flatten_range_of_empty (H : Nat → List γ) (m n : Nat) (hmn : m ≤ n)
    (hz : ∀ v, m ≤ v → H v = []) :
    ((List.range n).map H).flatten = ((List.range m).map H).flatten := by
  induction n with
  | zero =>
      have hm : m = 0 := Nat.le_zero.mp hmn
      subst hm
      rfl
  | succ n ih =>
      rcases Nat.lt_or_ge m (n + 1) with hlt | hge
      · have hmn2 : m ≤ n := by omega
        rw [List.range_succ, List.map_append, List.flatten_append, ih hmn2]
        simp [hz n (by omega)]
      · have hm : m = n + 1 := by omega
        subst hm
        rfl

omit [LinearOrderedField α] in
/-- Filtering a range for a single index intersected with a condition. -/
theorem filter_range_eq_single (N j : Nat) (hj : j < N) (f : Nat → Bool) :
    (List.range N).filter (fun i => decide (i = j) && f i) =
      if f j then [j] else [] := by
  induction N with
  | zero => omega
  | succ n ih =>
      rw [List.range_succ, List.filter_append]
      rcases Nat.lt_or_ge j n with hlt | hge
      · rw [ih hlt]
        have hlast : [n].filter (fun i => decide (i = j) && f i) = [] := by
          simp [List.filter_cons]
          intro h
          omega
        rw [hlast, List.append_nil]
      · have hjn : j = n := by omega
        subst hjn
        have hpre : (List.range j).filter
            (fun i => decide (i = j) && f i) = [] := by
          apply List.filter_eq_nil_iff.mpr
          intro x hx
          have : x < j := List.mem_range.mp hx
          simp
          intro h
          omega
        rw [hpre, List.nil_append]
        cases hf : f j <;> simp [List.filter_cons, hf]

omit [LinearOrderedField α] in
/-- Flattening singleton rows placed at one matching position. -/
theorem flatten_range_single (g : Nat → γ) (A v : Nat) (h1 : 1 ≤ v)
    (h2 : v ≤ A) :
    ((List.range A).map (fun τ => if τ + 1 = v then [g τ] else [])).flatten
      = [g (v - 1)] := by
  induction A with
  | zero => omega
  | succ n ih =>
      rw [List.range_succ, List.map_append, List.flatten_append]
      rcases Nat.lt_or_ge v (n + 1) with hlt | hge
      · rw [ih (by omega)]
        have : ¬ (n + 1 = v) := by omega
        simp [this]
      · have hv : v = n + 1 := by omega
        subst hv
        have hpre : ((List.range n).map
            (fun τ => if τ + 1 = n + 1 then [g τ] else [])).flatten = [] := by
          apply List.flatten_eq_nil_iff.mpr
          intro l hl
          rcases List.mem_map.mp hl with ⟨τ, hτ, rfl⟩
          have : τ < n := List.mem_range.mp hτ
          have : ¬ (τ + 1 = n + 1) := by omega
          simp [this]
        rw [hpre, List.nil_append]
        simp

omit [LinearOrderedField α] in
/-- Boolean equal to the decision of a proposition it is equivalent to. -/
theorem bool_eq_decide (b : Bool) (P : Prop) [Decidable P]
    (h : b = true ↔ P) : b = decide P := by
  cases hb : b
  · have hnp : ¬ P := fun hP => by simp [h.mpr hP] at hb
    exact (decide_eq_false hnp).symm
  · exact (decide_eq_true (h.mp hb)).symm

omit [LinearOrderedField α] in
/-- Under the padding invariant, the non-padding mask of an action row is
determined by the termination steps. -/
theorem mask_row_char [DecidableEq σ] (t : Trajectories σ α)
    (hp : PaddedBatch t) (τ : Nat) (hτ : τ < t.actions.length) :
    (t.actions.getD τ []).map (fun a => decide (a ≠ -1)) =
      t.when_is_done.map (fun Ti => decide (τ < Ti)) := by
  obtain ⟨-, -, -, haw, -, hpad, -⟩ := hp
  have hmem : t.actions.getD τ [] ∈ t.actions := by
    rw [List.getD_eq_getElem _ _ hτ]
    exact List.getElem_mem hτ
  have hrow : (t.actions.getD τ []).length = t.when_is_done.length :=
    haw _ hmem
  apply List.ext_getElem (by simpa using hrow)
  intro n h1 h2
  simp only [List.getElem_map]
  have hn : n < t.when_is_done.length := by simpa using h2
  have hiff := hpad τ n hτ hn
  rw [List.getD_eq_getElem _ _ (by simp at h1; omega),
    List.getD_eq_getElem _ _ hn] at hiff
  exact decide_eq_decide.mpr hiff

omit [LinearOrderedField α] in
/-- Under the padding invariant, the sink mask of a state row is determined
by the termination steps. -/
theorem sink_row_char [DecidableEq σ] (t : Trajectories σ α)
    (hp : PaddedBatch t) (τ : Nat) (hτ : τ < t.states.length) :
    (t.states.getD τ []).map t.env.isSink =
      t.when_is_done.map (fun Ti => decide (Ti ≤ τ)) := by
  obtain ⟨-, -, hsw, -, -, -, hsink⟩ := hp
  have hmem : t.states.getD τ [] ∈ t.states := by
    rw [List.getD_eq_getElem _ _ hτ]
    exact List.getElem_mem hτ
  have hrow : (t.states.getD τ []).length = t.when_is_done.length :=
    hsw _ hmem
  apply List.ext_getElem (by simpa using hrow)
  intro n h1 h2
  simp only [List.getElem_map]
  have hn : n < t.when_is_done.length := by simpa using h2
  have hiff := hsink τ n hτ hn
  rw [List.getD_eq_getElem _ _ (by simp at h1; omega),
    List.getD_eq_getElem _ _ hn] at hiff
  exact bool_eq_decide _ _ hiff

omit [LinearOrderedField α] in
/-- Canonical form of the selection mask under the padding invariant. -/
theorem actMask_canon [DecidableEq σ] (t : Trajectories σ α)
    (hp : PaddedBatch t) :
    actMask t = (List.range t.actions.length).map
      (fun τ => t.when_is_done.map (fun Ti => decide (τ < Ti))) := by
  apply List.ext_getElem (by simp [actMask])
  intro τ h1 h2
  have hτ : τ < t.actions.length := by simpa [actMask] using h1
  simp only [actMask, List.getElem_map, List.getElem_range]
  have := mask_row_char t hp τ hτ
  rwa [List.getD_eq_getElem _ _ hτ] at this

omit [LinearOrderedField α] in
/-- Canonical form of the done flags of the forward transition derivation
under the padding invariant: within each time row the selected flags are
indexed by the trajectories still alive there, and such a flag is true
exactly when the trajectory terminates at the next step. -/
theorem is_done_canon [DecidableEq σ] (t : Trajectories σ α)
    (hp : PaddedBatch t) :
    (maskSelect (t.states.drop 1) (actMask t)).map t.env.isSink =
      ((List.range t.actions.length).map (fun τ =>
        (t.when_is_done.filter (fun Ti => decide (τ < Ti))).map
          (fun Ti => decide (Ti = τ + 1)))).flatten := by
  unfold maskSelect
  rw [List.map_flatten]
  congr 1
  have hS : t.states.length = t.actions.length + 1 := hp.2.1
  apply List.ext_getElem
  · simp [List.length_zipWith, actMask, hS]
  · intro τ h1 h2
    have hτ : τ < t.actions.length := by simpa using h2
    simp only [List.getElem_map, List.getElem_zipWith, List.getElem_range]
    rw [map_maskRow]
    simp only [List.getElem_drop]
    simp only [actMask_canon t hp, List.getElem_map, List.getElem_range]
    have hsr := sink_row_char t hp (1 + τ) (by omega)
    rw [List.getD_eq_getElem _ _ (by omega : 1 + τ < t.states.length)]
      at hsr
    rw [hsr, maskRow_map_map]
    apply List.map_eq_map_iff.mpr
    intro Ti hTi
    have : τ < Ti := by simpa using List.of_mem_filter hTi
    apply decide_eq_decide.mpr
    omega

omit [LinearOrderedField α] in
/-- Presentation of a list as the image of its index range. -/
theorem list_eq_range_map (l : List β) (d : β) :
    l = (List.range l.length).map (fun i => l.getD i d) := by
  apply List.ext_getElem (by simp)
  intro n h1 h2
  simp only [List.getElem_map, List.getElem_range]
  rw [List.getD_eq_getElem l d h1]

omit [LinearOrderedField α] in
/-- Filter and map over a list, re-indexed through its index range. -/
theorem filter_map_as_range (T : List Nat) (p : Nat → Bool) (f : Nat → γ) :
    (T.filter p).map f =
      ((List.range T.length).filter (fun i => p (T.getD i 0))).map
        (fun i => f (T.getD i 0)) := by
  conv_lhs => rw [list_eq_range_map T 0]
  rw [List.map_filter, List.map_map]
  rfl

omit [LinearOrderedField α] in
/-- Zipping two flattenings whose rows have matching lengths. -/
theorem zip_flatten_rows (L1 : List (List β)) (L2 : List (List γ))
    (h : List.Forall₂ (fun a b => a.length = b.length) L1 L2) :
    (L1.flatten).zip (L2.flatten) = (List.zipWith List.zip L1 L2).flatten := by
  induction h with
  | nil => rfl
  | cons hl _ ih =>
      simp only [List.flatten_cons, List.zipWith_cons_cons]
      rw [List.zip_append hl, ih]

omit [LinearOrderedField α] in
/-- Canonical form of the selected cells under the padding invariant: row
by row, the cell pairs of the trajectories still alive at that time step. -/
theorem selCells_canon [DecidableEq σ] (t : Trajectories σ α)
    (hp : PaddedBatch t) :
    selCells t = ((List.range t.actions.length).map (fun τ =>
      ((List.range t.when_is_done.length).filter
        (fun i => decide (τ < t.when_is_done.getD i 0))).map
        (fun i => (τ, i)))).flatten := by
  unfold selCells maskSelect
  congr 1
  apply List.ext_getElem
  · simp [actMask]
  · intro τ h1 h2
    have hτ : τ < t.actions.length := by simpa using h2
    simp only [List.getElem_zipWith, List.getElem_map, List.getElem_range]
    have hmr := mask_row_char t hp τ hτ
    rw [List.getD_eq_getElem _ _ hτ] at hmr
    rw [hmr]
    rw [show (t.when_is_done.map (fun Ti => decide (τ < Ti))) =
        (List.range t.when_is_done.length).map
          (fun i => decide (τ < t.when_is_done.getD i 0)) by
      conv_lhs => rw [list_eq_range_map t.when_is_done 0]
      rw [List.map_map]
      rfl]
    rw [maskRow_map_map]

omit [LinearOrderedField α] in
/-- Index-range form of the canonical done flags. -/
theorem is_done_range [DecidableEq σ] (t : Trajectories σ α)
    (hp : PaddedBatch t) :
    (maskSelect (t.states.drop 1) (actMask t)).map t.env.isSink =
      ((List.range t.actions.length).map (fun τ =>
        ((List.range t.when_is_done.length).filter
          (fun i => decide (τ < t.when_is_done.getD i 0))).map
          (fun i => decide (t.when_is_done.getD i 0 = τ + 1)))).flatten := by
  rw [is_done_canon t hp]
  congr 1
  apply List.map_eq_map_iff.mpr
  intro τ hτ
  rw [filter_map_as_range]

omit [LinearOrderedField α] in
/-- Rowwise length agreement of two images of the same index list. -/
theorem forall2_map_map (l : List β) (f : β → List γ) (g : β → List X)
    (h : ∀ x ∈ l, (f x).length = (g x).length) :
    List.Forall₂ (fun a b => a.length = b.length) (l.map f) (l.map g) := by
  induction l with
  | nil => exact List.Forall₂.nil
  | cons x l ih =>
      exact List.Forall₂.cons (h x (by simp))
        (ih (fun y hy => h y (by simp [hy])))

omit [LinearOrderedField α] in
/-- Rowwise zip of two images of the same index list. -/
theorem zipWith_zip_map_same (f : β → List γ) (g : β → List X)
    (l : List β) :
    List.zipWith List.zip (l.map f) (l.map g) =
      l.map (fun x => (f x).zip (g x)) := by
  induction l with
  | nil => rfl
  | cons x l ih => simp [ih]

omit [LinearOrderedField α] in
/-- Under the direction-generic padding invariant, the non-padding mask of
an action row is determined by the termination steps. -/
theorem mask_row_char_of (t : Trajectories σ α) (p : σ → Bool)
    (hg : PadGrid t p) (τ : Nat) (hτ : τ < t.actions.length) :
    (t.actions.getD τ []).map (fun a => decide (a ≠ -1)) =
      t.when_is_done.map (fun Ti => decide (τ < Ti)) := by
  obtain ⟨-, -, haw, -, hpad, -⟩ := hg
  have hmem : t.actions.getD τ [] ∈ t.actions := by
    rw [List.getD_eq_getElem _ _ hτ]
    exact List.getElem_mem hτ
  have hrow : (t.actions.getD τ []).length = t.when_is_done.length :=
    haw _ hmem
  apply List.ext_getElem (by simpa using hrow)
  intro n h1 h2
  simp only [List.getElem_map]
  have hn : n < t.when_is_done.length := by simpa using h2
  have hiff := hpad τ n hτ hn
  rw [List.getD_eq_getElem _ _ (by simp at h1; omega),
    List.getD_eq_getElem _ _ hn] at hiff
  exact decide_eq_decide.mpr hiff

omit [LinearOrderedField α] in
/-- Under the direction-generic padding invariant, the pad-test mask of a
state row is determined by the termination steps. -/
theorem pad_row_char (t : Trajectories σ α) (p : σ → Bool)
    (hg : PadGrid t p) (τ : Nat) (hτ : τ < t.states.length) :
    (t.states.getD τ []).map p =
      t.when_is_done.map (fun Ti => decide (Ti ≤ τ)) := by
  obtain ⟨-, hsw, -, -, -, hpad⟩ := hg
  have hmem : t.states.getD τ [] ∈ t.states := by
    rw [List.getD_eq_getElem _ _ hτ]
    exact List.getElem_mem hτ
  have hrow : (t.states.getD τ []).length = t.when_is_done.length :=
    hsw _ hmem
  apply List.ext_getElem (by simpa using hrow)
  intro n h1 h2
  simp only [List.getElem_map]
  have hn : n < t.when_is_done.length := by simpa using h2
  have hiff := hpad τ n hτ hn
  rw [List.getD_eq_getElem _ _ (by simp at h1; omega),
    List.getD_eq_getElem _ _ hn] at hiff
  exact bool_eq_decide _ _ hiff

omit [LinearOrderedField α] in
/-- Canonical form of the selection mask under the direction-generic
padding invariant. -/
theorem actMask_canon_of (t : Trajectories σ α) (p : σ → Bool)
    (hg : PadGrid t p) :
    actMask t = (List.range t.actions.length).map
      (fun τ => t.when_is_done.map (fun Ti => decide (τ < Ti))) := by
  apply List.ext_getElem (by simp [actMask])
  intro τ h1 h2
  have hτ : τ < t.actions.length := by simpa [actMask] using h1
  simp only [actMask, List.getElem_map, List.getElem_range]
  have := mask_row_char_of t p hg τ hτ
  rwa [List.getD_eq_getElem _ _ hτ] at this

omit [LinearOrderedField α] in
/-- Canonical form of the pad test on the selected next states under the
direction-generic padding invariant: within each time row the selected
flags are indexed by the trajectories still alive there, and such a flag
is true exactly when the trajectory terminates at the next step. -/
theorem is_done_canon_of (t : Trajectories σ α) (p : σ → Bool)
    (hg : PadGrid t p) :
    (maskSelect (t.states.drop 1) (actMask t)).map p =
      ((List.range t.actions.length).map (fun τ =>
        (t.when_is_done.filter (fun Ti => decide (τ < Ti))).map
          (fun Ti => decide (Ti = τ + 1)))).flatten := by
  unfold maskSelect
  rw [List.map_flatten]
  congr 1
  have hS : t.states.length = t.actions.length + 1 := hg.1
  apply List.ext_getElem
  · simp [List.length_zipWith, actMask, hS]
  · intro τ h1 h2
    have hτ : τ < t.actions.length := by simpa using h2
    simp only [List.getElem_map, List.getElem_zipWith, List.getElem_range]
    rw [map_maskRow]
    simp only [List.getElem_drop]
    simp only [actMask_canon_of t p hg, List.getElem_map,
      List.getElem_range]
    have hsr := pad_row_char t p hg (1 + τ) (by omega)
    rw [List.getD_eq_getElem _ _ (by omega : 1 + τ < t.states.length)]
      at hsr
    rw [hsr, maskRow_map_map]
    apply List.map_eq_map_iff.mpr
    intro Ti hTi
    have : τ < Ti := by simpa using List.of_mem_filter hTi
    apply decide_eq_decide.mpr
    omega

omit [LinearOrderedField α] in
/-- Canonical form of the selected cells under the direction-generic
padding invariant. -/
theorem selCells_canon_of (t : Trajectories σ α) (p : σ → Bool)
    (hg : PadGrid t p) :
    selCells t = ((List.range t.actions.length).map (fun τ =>
      ((List.range t.when_is_done.length).filter
        (fun i => decide (τ < t.when_is_done.getD i 0))).map
        (fun i => (τ, i)))).flatten := by
  unfold selCells maskSelect
  congr 1
  apply List.ext_getElem
  · simp [actMask]
  · intro τ h1 h2
    have hτ : τ < t.actions.length := by simpa using h2
    simp only [List.getElem_zipWith, List.getElem_map, List.getElem_range]
    have hmr := mask_row_char_of t p hg τ hτ
    rw [List.getD_eq_getElem _ _ hτ] at hmr
    rw [hmr]
    rw [show (t.when_is_done.map (fun Ti => decide (τ < Ti))) =
        (List.range t.when_is_done.length).map
          (fun i => decide (τ < t.when_is_done.getD i 0)) by
      conv_lhs => rw [list_eq_range_map t.when_is_done 0]
      rw [List.map_map]
      rfl]
    rw [maskRow_map_map]

omit [LinearOrderedField α] in
/-- Index-range form of the canonical pad test on the selected next
states. -/
theorem is_done_range_of (t : Trajectories σ α) (p : σ → Bool)
    (hg : PadGrid t p) :
    (maskSelect (t.states.drop 1) (actMask t)).map p =
      ((List.range t.actions.length).map (fun τ =>
        ((List.range t.when_is_done.length).filter
          (fun i => decide (τ < t.when_is_done.getD i 0))).map
          (fun i => decide (t.when_is_done.getD i 0 = τ + 1)))).flatten := by
  rw [is_done_canon_of t p hg]
  congr 1
  apply List.map_eq_map_iff.mpr
  intro τ hτ
  rw [filter_map_as_range]

omit [LinearOrderedField α] in
/-- Alignment and per-trajectory uniqueness of canonical done flags: flags
in the row-by-row canonical form agree with the last-real-action test on
the selected cells, and each trajectory owns exactly one true flag, at its
termination step minus one. -/
theorem done_flags_align (t : Trajectories σ α) (flags : List Bool)
    (hdone2 : flags = ((List.range t.actions.length).map (fun τ =>
      ((List.range t.when_is_done.length).filter
        (fun i => decide (τ < t.when_is_done.getD i 0))).map
        (fun i => decide (t.when_is_done.getD i 0 = τ + 1)))).flatten)
    (hselc : selCells t = ((List.range t.actions.length).map (fun τ =>
      ((List.range t.when_is_done.length).filter
        (fun i => decide (τ < t.when_is_done.getD i 0))).map
        (fun i => (τ, i)))).flatten)
    (hbnds : ∀ i, i < t.when_is_done.length →
      1 ≤ t.when_is_done.getD i 0 ∧
        t.when_is_done.getD i 0 ≤ t.actions.length) :
    flags = (selCells t).map
      (fun c => decide (t.when_is_done.getD c.2 0 = c.1 + 1)) ∧
    (∀ j, j < t.when_is_done.length →
      ((selCells t).zip flags).filter
        (fun q => decide (q.1.2 = j) && q.2) =
        [((t.when_is_done.getD j 0 - 1, j), true)]) := by
  constructor
  · rw [hdone2, hselc, List.map_flatten]
    congr 1
    rw [List.map_map]
    apply List.map_eq_map_iff.mpr
    intro τ hτ
    simp only [Function.comp]
    rw [List.map_map]
    rfl
  · intro j hj
    rw [hdone2, hselc]
    rw [zip_flatten_rows _ _ (forall2_map_map _ _ _ (fun τ hτ => by
      simp))]
    rw [zipWith_zip_map_same]
    rw [List.filter_flatten, List.map_map]
    have hrow : ∀ τ ∈ List.range t.actions.length,
        ((fun l => l.filter (fun q => decide (q.1.2 = j) && q.2)) ∘
          (fun τ => (((List.range t.when_is_done.length).filter
            (fun i => decide (τ < t.when_is_done.getD i 0))).map
              (fun i => (τ, i))).zip
            (((List.range t.when_is_done.length).filter
              (fun i => decide (τ < t.when_is_done.getD i 0))).map
              (fun i => decide (t.when_is_done.getD i 0 = τ + 1))))) τ =
        (if τ + 1 = t.when_is_done.getD j 0
          then [((τ, j), true)] else []) := by
      intro τ hτ
      simp only [Function.comp]
      rw [List.zip_map']
      rw [List.map_filter]
      rw [List.filter_filter]
      rw [List.filter_congr (l := List.range t.when_is_done.length)
        (q := fun i => decide (i = j) &&
          (decide (t.when_is_done.getD i 0 = τ + 1) &&
            decide (τ < t.when_is_done.getD i 0))) ?_]
      · rw [filter_range_eq_single _ _ hj]
        rw [apply_ite (List.map (fun i =>
          ((τ, i), decide (t.when_is_done.getD i 0 = τ + 1))))]
        by_cases hc : τ + 1 = t.when_is_done.getD j 0
        · have h1 : decide (t.when_is_done.getD j 0 = τ + 1) = true :=
            decide_eq_true hc.symm
          have h2 : decide (τ < t.when_is_done.getD j 0) = true :=
            decide_eq_true (by omega)
          simp only [h1, h2, Bool.and_self, if_true, List.map_cons,
            List.map_nil, if_pos hc]
        · have h1 : decide (t.when_is_done.getD j 0 = τ + 1) = false :=
            decide_eq_false (by omega)
          simp only [h1, Bool.false_and, Bool.false_eq_true, if_false,
            List.map_nil, if_neg hc]
      · intro x hx
        simp only [Function.comp]
        cases hx1 : decide (x = j) <;>
          cases hx2 : decide (t.when_is_done.getD x 0 = τ + 1) <;>
          cases hx3 : decide (τ < t.when_is_done.getD x 0) <;> rfl
    rw [List.map_congr_left hrow]
    have hb := hbnds j hj
    exact flatten_range_single (fun τ => ((τ, j), true)) _ _ hb.1 hb.2

/-- Claim C3 (amended): the done flag of the transition derivation is the
sink test on the next state for a forward batch and the initial-state test
for a backward batch; under the padding invariant of either direction a
selected cell is flagged done exactly when its action is the last real
action of its trajectory, and each trajectory owns exactly one done
transition, at time when_is_done - 1; moreover no selected forward
transition has a sink source state.  (The original claim further said no
transition has a sink next state; the terminal transitions refute that.) -/
theorem C3_terminal_flags [DecidableEq σ] (t : Trajectories σ α)
    (tr : Transitions σ α) (h : t.toTransitions = .ok tr) :
    (t.is_backward = false →
      tr.is_done = tr.next_states.map t.env.isSink) ∧
    (t.is_backward = true →
      tr.is_done = tr.next_states.map t.env.isInit) ∧
    (PaddedBatch t →
      tr.is_done = (selCells t).map
        (fun c => decide (t.when_is_done.getD c.2 0 = c.1 + 1)) ∧
      (∀ j, j < t.when_is_done.length →
        ((selCells t).zip tr.is_done).filter
          (fun q => decide (q.1.2 = j) && q.2) =
          [((t.when_is_done.getD j 0 - 1, j), true)]) ∧
      (∀ s ∈ tr.states, t.env.isSink s = false)) ∧
    (BackwardPaddedBatch t →
      tr.is_done = (selCells t).map
        (fun c => decide (t.when_is_done.getD c.2 0 = c.1 + 1)) ∧
      (∀ j, j < t.when_is_done.length →
        ((selCells t).zip tr.is_done).filter
          (fun q => decide (q.1.2 = j) && q.2) =
          [((t.when_is_done.getD j 0 - 1, j), true)])) := by
  obtain ⟨hst, hact, hnext, hdone, hbk2, henv⟩ := toTransitions_ok_fields t tr h
  refine ⟨?_, ?_, ?_, ?_⟩
  · intro hfwd
    rw [hfwd] at hdone
    simp only [if_false, Bool.false_eq_true] at hdone
    rw [hdone, hnext]
  · intro hbwd
    rw [hbwd] at hdone
    rw [if_pos rfl] at hdone
    rw [hdone, hnext]
  · intro hp
    have hfwd : t.is_backward = false := hp.1
    rw [hfwd] at hdone
    simp only [if_false, Bool.false_eq_true] at hdone
    have hdone2 : tr.is_done =
        ((List.range t.actions.length).map (fun τ =>
          ((List.range t.when_is_done.length).filter
            (fun i => decide (τ < t.when_is_done.getD i 0))).map
            (fun i => decide (t.when_is_done.getD i 0 = τ + 1)))).flatten := by
      rw [hdone, is_done_range t hp]
    obtain ⟨halign, huniq⟩ := done_flags_align t tr.is_done hdone2
      (selCells_canon t hp) hp.2.2.2.2.1
    refine ⟨halign, huniq, ?_⟩
    intro s hs
    rw [hst] at hs
    unfold maskSelect at hs
    rcases List.mem_join.mp hs with ⟨row, hrowmem, hsrow⟩
    rcases List.mem_iff_getElem.mp hrowmem with ⟨τ, hτlen, rfl⟩
    have hτ : τ < t.actions.length := by
      simp [actMask, hp.2.1] at hτlen
      omega
    have hτS : τ < t.states.length := by rw [hp.2.1]; omega
    have hτD : τ < t.states.dropLast.length := by
      simp [List.length_dropLast, hp.2.1]; omega
    have hτA : τ < (actMask t).length := by simpa [actMask] using hτ
    rw [List.getElem_zipWith] at hsrow
    have hdl : (t.states.dropLast)[τ] = t.states[τ] :=
      List.getElem_dropLast _ _ _
    rw [hdl] at hsrow
    have hmr := mask_row_char t hp τ hτ
    rw [List.getD_eq_getElem _ _ hτ] at hmr
    have hmask : (actMask t)[τ] =
        t.when_is_done.map (fun Ti => decide (τ < Ti)) := by
      simp only [actMask_canon t hp, List.getElem_map, List.getElem_range]
    rw [hmask] at hsrow
    have hrow2 : t.states[τ] =
        (List.range t.when_is_done.length).map
          (fun i => (t.states[τ]).getD i t.env.sf)
        := by
      have hw : (t.states[τ]).length =
          t.when_is_done.length :=
        hp.2.2.1 _ (List.getElem_mem _)
      conv_lhs => rw [list_eq_range_map
        (t.states[τ]) t.env.sf]
      rw [hw]
    rw [hrow2, show (t.when_is_done.map (fun Ti => decide (τ < Ti))) =
        (List.range t.when_is_done.length).map
          (fun i => decide (τ < t.when_is_done.getD i 0)) by
      conv_lhs => rw [list_eq_range_map t.when_is_done 0]
      rw [List.map_map]
      rfl, maskRow_map_map] at hsrow
    rcases List.mem_map.mp hsrow with ⟨i, hifilt, rfl⟩
    have hiT : τ < t.when_is_done.getD i 0 := by
      simpa using List.of_mem_filter hifilt
    have hiN : i < t.when_is_done.length :=
      List.mem_range.mp (List.mem_of_mem_filter hifilt)
    have hsink := hp.2.2.2.2.2.2 τ i (by rw [hp.2.1]; omega) hiN
    rw [List.getD_eq_getElem _ _ hτS] at hsink
    cases hres : t.env.isSink ((t.states[τ]).getD
      i t.env.sf)
    · rfl
    · exfalso
      have := hsink.mp hres
      omega
  · intro hb
    have hbwd : t.is_backward = true := hb.1
    rw [hbwd] at hdone
    rw [if_pos rfl] at hdone
    have hdone2 : tr.is_done =
        ((List.range t.actions.length).map (fun τ =>
          ((List.range t.when_is_done.length).filter
            (fun i => decide (τ < t.when_is_done.getD i 0))).map
            (fun i => decide (t.when_is_done.getD i 0 = τ + 1)))).flatten := by
      rw [hdone, is_done_range_of t t.env.isInit hb.2]
    exact done_flags_align t tr.is_done hdone2
      (selCells_canon_of t t.env.isInit hb.2) hb.2.2.2.2.1

/-- Counterexample for claim C3 as stated: the forward batch trajC produces
transitions among whose next states a sink sentinel occurs (every terminal
transition has the sink as next state), refuting the clause that no output
transition has a sink next state when is_backward is false. -/
theorem C3_terminal_flags_counterexample :
    trajC.is_backward = false ∧
    (Trajectories.toTransitions trajC).map
      (fun tr => tr.next_states.any (fun s => envC.isSink s)) = .ok true :=
  ⟨rfl, rfl⟩

/-- Padding invariant of the concrete batch trajC, checked cell by cell. -/
theorem paddedBatch_trajC : PaddedBatch trajC := by
  refine ⟨rfl, rfl, ?_, ?_, ?_, ?_, ?_⟩
  · decide
  · decide
  · intro i hi
    have hi2 : i < 3 := hi
    interval_cases i <;> decide
  · intro τ i hτ hi
    have hτ2 : τ < 4 := hτ
    have hi2 : i < 3 := hi
    interval_cases τ <;> interval_cases i <;> decide
  · intro τ i hτ hi
    have hτ2 : τ < 5 := hτ
    have hi2 : i < 3 := hi
    interval_cases τ <;> interval_cases i <;> decide

/-- Padding invariant of the concrete backward batch bkC, checked cell by
cell against the initial-state test. -/
theorem backwardPaddedBatch_bkC : BackwardPaddedBatch bkC := by
  refine ⟨rfl, rfl, ?_, ?_, ?_, ?_, ?_⟩
  · decide
  · decide
  · intro i hi
    have hi2 : i < 2 := hi
    interval_cases i <;> decide
  · intro τ i hτ hi
    have hτ2 : τ < 2 := hτ
    have hi2 : i < 2 := hi
    interval_cases τ <;> interval_cases i <;> decide
  · intro τ i hτ hi
    have hτ2 : τ < 3 := hτ
    have hi2 : i < 2 := hi
    interval_cases τ <;> interval_cases i <;> decide

/-- Witness for claim C3: the amended statement applied to the concrete
forward batch trajC (per-trajectory singleton evaluated at trajectory 1)
and to the concrete backward batch bkC (singleton at trajectory 0). -/
theorem C3_terminal_flags_witness :
    Trajectories.toTransitions trajC = .ok trCl ∧
    trCl.is_done = trCl.next_states.map envC.isSink ∧
    trCl.is_done = (selCells trajC).map
      (fun c => decide (trajC.when_is_done.getD c.2 0 = c.1 + 1)) ∧
    ((selCells trajC).zip trCl.is_done).filter
      (fun q => decide (q.1.2 = 1) && q.2) = [((3, 1), true)] ∧
    (∀ s ∈ trCl.states, envC.isSink s = false) ∧
    Trajectories.toTransitions bkC = .ok bkCl ∧
    bkCl.is_done = bkCl.next_states.map envC.isInit ∧
    bkCl.is_done = (selCells bkC).map
      (fun c => decide (bkC.when_is_done.getD c.2 0 = c.1 + 1)) ∧
    ((selCells bkC).zip bkCl.is_done).filter
      (fun q => decide (q.1.2 = 0) && q.2) = [((1, 0), true)] := by
  have h : Trajectories.toTransitions trajC = .ok trCl := rfl
  have hbk : Trajectories.toTransitions bkC = .ok bkCl := rfl
  obtain ⟨f1, -, f3, -⟩ := C3_terminal_flags trajC trCl h
  obtain ⟨-, b2, -, b4⟩ := C3_terminal_flags bkC bkCl hbk
  obtain ⟨fa, fu, fns⟩ := f3 paddedBatch_trajC
  obtain ⟨ba, bu⟩ := b4 backwardPaddedBatch_bkC
  exact ⟨h, f1 rfl, fa, fu 1 (by decide), fns, hbk, b2 rfl, ba,
    bu 0 (by decide)⟩

/-- Rewards field and count guard of a successful forward transition
derivation with cached rewards. -/
theorem toTransitions_ok_rewards [DecidableEq σ] (t : Trajectories σ α)
    (tr : Transitions σ α) (rs : List (FV α)) (h : t.toTransitions = .ok tr)
    (hfwd : t.is_backward = false) (hrw : t._rewards = some rs) :
    tr.rewards = some (scatterByMask
      ((maskSelect (t.states.drop 1) (actMask t)).map t.env.isSink)
      (((List.range (t.when_is_done.foldr max 0 + 1)).map (fun v =>
        ((rs.zip t.when_is_done).filter (fun p => decide (p.2 = v))).map
          (fun p => p.1))).flatten)
      ((maskSelect t.actions (actMask t)).map (fun _ => FV.fin (-1)))) ∧
    ((maskSelect (t.states.drop 1) (actMask t)).map t.env.isSink).count true
      = (((List.range (t.when_is_done.foldr max 0 + 1)).map (fun v =>
        ((rs.zip t.when_is_done).filter (fun p => decide (p.2 = v))).map
          (fun p => p.1))).flatten).length := by
  simp only [Trajectories.toTransitions, hrw, hfwd, Bool.false_eq_true,
    if_false, ite_false] at h
  split at h
  · cases h
  · split at h
    case isFalse => cases h
    case isTrue hcount =>
      rw [Except.ok.injEq] at h
      subst h
      exact ⟨rfl, hcount⟩

omit [LinearOrderedField α] in
/-- Zip of two parallel lists presented over the index range. -/
theorem zip_as_range (rs : List γ) (T : List Nat)
    (hlen : rs.length = T.length) :
    rs.zip T = (List.range T.length).map
      (fun i => (rs.getD i d, T.getD i 0)) := by
  apply List.ext_getElem (by simp [hlen])
  intro n h1 h2
  have hn : n < T.length := by simp [hlen] at h1; omega
  simp only [List.getElem_map, List.getElem_range, List.getElem_zip]
  rw [List.getD_eq_getElem rs d (by omega), List.getD_eq_getElem T 0 hn]

omit [LinearOrderedField α] in
/-- Filtering by a conjunction whose second conjunct is implied. -/
theorem filter_and_absorb (l : List β) (p q : β → Bool)
    (h : ∀ x ∈ l, q x = true → p x = true) :
    l.filter (fun x => q x && p x) = l.filter q := by
  apply List.filter_congr
  intro x hx
  cases hq : q x
  · simp
  · simp [h x hx hq]

omit [LinearOrderedField α] in
/-- Canonical form of the grouped reward concatenation: grouping over the
values 0 to max(when_is_done) equals grouping over successor values of the
time rows, because group 0 is empty (every termination step is at least 1)
and groups beyond the maximum are empty. -/
theorem gathered_canon (rs : List γ) (T : List Nat) (A : Nat)
    (hpos : ∀ x ∈ T, 1 ≤ x) (hbound : ∀ x ∈ T, x ≤ A) :
    ((List.range (T.foldr max 0 + 1)).map (fun v =>
      ((rs.zip T).filter (fun p => decide (p.2 = v))).map
        (fun p => p.1))).flatten =
    ((List.range A).map (fun τ =>
      ((rs.zip T).filter (fun p => decide (p.2 = τ + 1))).map
        (fun p => p.1))).flatten := by
  rw [List.range_succ_eq_map, List.map_cons, List.flatten_cons,
    List.map_map]
  have hz : ((rs.zip T).filter (fun p => decide (p.2 = 0))).map
      (fun p => p.1) = [] := by
    rw [List.filter_eq_nil_iff.mpr, List.map_nil]
    intro p hp
    have hT : p.2 ∈ T := (List.of_mem_zip hp).2
    have := hpos p.2 hT
    simp
    omega
  rw [hz, List.nil_append]
  have hmax : T.foldr max 0 ≤ A := foldr_max_le T A hbound
  have hzero : ∀ v, T.foldr max 0 ≤ v →
      ((rs.zip T).filter (fun p => decide (p.2 = v + 1))).map
        (fun p => p.1) = [] := by
    intro v hv
    rw [List.filter_eq_nil_iff.mpr, List.map_nil]
    intro p hp
    have hT : p.2 ∈ T := (List.of_mem_zip hp).2
    have := foldr_max_bound T p.2 hT
    simp
    omega
  have hlhs := flatten_range_of_empty
    (fun v => ((rs.zip T).filter (fun p => decide (p.2 = v + 1))).map
      (fun p => p.1)) (T.foldr max 0) A hmax hzero
  rw [show ((fun v => ((rs.zip T).filter
      (fun p => decide (p.2 = v))).map (fun p => p.1)) ∘ Nat.succ) =
      (fun v => ((rs.zip T).filter
        (fun p => decide (p.2 = v + 1))).map (fun p => p.1)) from
    funext (fun v => rfl)]
  rw [← hlhs]

/-- Canonical form of the invalid-marker base vector of the reward
assignment. -/
theorem base_canon [DecidableEq σ] (t : Trajectories σ α)
    (hp : PaddedBatch t) :
    (maskSelect t.actions (actMask t)).map (fun _ => (FV.fin (-1) : FV α)) =
      ((List.range t.actions.length).map (fun τ =>
        ((List.range t.when_is_done.length).filter
          (fun i => decide (τ < t.when_is_done.getD i 0))).map
          (fun _ => (FV.fin (-1) : FV α)))).flatten := by
  unfold actMask
  rw [maskSelect_self, List.map_flatten, List.map_map]
  congr 1
  apply List.ext_getElem (by simp)
  intro τ h1 h2
  have hτ : τ < t.actions.length := by simpa using h1
  simp only [List.getElem_map, List.getElem_range, Function.comp]
  have hmr := mask_row_char t hp τ hτ
  rw [List.getD_eq_getElem _ _ hτ] at hmr
  have hcnt : (t.actions[τ].filter (fun a => decide (a ≠ -1))).length =
      (((List.range t.when_is_done.length).filter
        (fun i => decide (τ < t.when_is_done.getD i 0)))).length := by
    rw [← List.countP_eq_length_filter, ← List.countP_eq_length_filter]
    rw [← count_true_map (fun a => decide (a ≠ -1)) t.actions[τ], hmr,
      count_true_map]
    have := filter_map_as_range t.when_is_done
      (fun Ti => decide (τ < Ti)) (fun Ti => Ti)
    have hlen2 := congrArg List.length this
    simp only [List.length_map] at hlen2
    rw [← List.countP_eq_length_filter, ← List.countP_eq_length_filter]
      at hlen2
    exact hlen2
  calc (t.actions[τ].filter (fun a => decide (a ≠ -1))).map
        (fun _ => (FV.fin (-1) : FV α))
      = List.replicate
          (t.actions[τ].filter (fun a => decide (a ≠ -1))).length
          (FV.fin (-1) : FV α) := by
        rw [List.map_const']
    _ = List.replicate (((List.range t.when_is_done.length).filter
          (fun i => decide (τ < t.when_is_done.getD i 0)))).length
          (FV.fin (-1) : FV α) := by rw [hcnt]
    _ = ((List.range t.when_is_done.length).filter
          (fun i => decide (τ < t.when_is_done.getD i 0))).map
          (fun _ => (FV.fin (-1) : FV α)) := by rw [List.map_const']

/-- Canonical form of the masked selection of the specification reward
grid. -/
theorem specGrid_sel_canon [DecidableEq σ] (t : Trajectories σ α)
    (rs : List (FV α)) (hp : PaddedBatch t) :
    maskSelect (specRewardGrid t rs) (actMask t) =
      ((List.range t.actions.length).map (fun τ =>
        ((List.range t.when_is_done.length).filter
          (fun i => decide (τ < t.when_is_done.getD i 0))).map
          (fun i => if τ + 1 = t.when_is_done.getD i 0
            then rs.getD i (.fin 0) else FV.fin (-1)))).flatten := by
  unfold maskSelect
  congr 1
  apply List.ext_getElem
  · simp [specRewardGrid, actMask]
  · intro τ h1 h2
    have hτ : τ < t.actions.length := by simpa using h2
    have hτG : τ < (specRewardGrid t rs).length := by
      simpa [specRewardGrid] using hτ
    simp only [List.getElem_zipWith, List.getElem_map, List.getElem_range]
    have hgr : (specRewardGrid t rs)[τ] =
        (List.range t.when_is_done.length).map
          (fun i => if τ + 1 = t.when_is_done.getD i 0
            then rs.getD i (.fin 0) else FV.fin (-1)) := by
      have hw : (t.actions[τ]).length = t.when_is_done.length :=
        hp.2.2.2.1 _ (List.getElem_mem hτ)
      apply List.ext_getElem (by simp [specRewardGrid, hw])
      intro i hi1 hi2
      simp only [specRewardGrid, List.getElem_mapIdx, List.getElem_map,
        List.getElem_range]
    rw [hgr]
    simp only [actMask_canon t hp, List.getElem_map, List.getElem_range]
    rw [show (t.when_is_done.map (fun Ti => decide (τ < Ti))) =
        (List.range t.when_is_done.length).map
          (fun i => decide (τ < t.when_is_done.getD i 0)) by
      conv_lhs => rw [list_eq_range_map t.when_is_done 0]
      rw [List.map_map]
      rfl]
    rw [maskRow_map_map]

/-- Claim C1: for a well-formed forward batch with cached rewards, the
transition rewards are exactly the masked selection of the specification
reward grid: the invalid marker -1 on every non-terminal transition and the
cached reward of the owning trajectory on its terminal transition. -/
theorem C1_reward_distribution [DecidableEq σ] (t : Trajectories σ α)
    (tr : Transitions σ α) (rs : List (FV α)) (h : t.toTransitions = .ok tr)
    (hp : PaddedBatch t) (hrw : t._rewards = some rs)
    (hlen : rs.length = t.when_is_done.length) :
    tr.rewards = some (maskSelect (specRewardGrid t rs) (actMask t)) := by
  obtain ⟨hrew, -⟩ := toTransitions_ok_rewards t tr rs h hp.1 hrw
  have hTpos : ∀ x ∈ t.when_is_done, 1 ≤ x := by
    intro x hx
    rcases List.mem_iff_getElem.mp hx with ⟨i, hi, rfl⟩
    have := (hp.2.2.2.2.1 i hi).1
    rwa [List.getD_eq_getElem _ _ hi] at this
  have hTbound : ∀ x ∈ t.when_is_done, x ≤ t.actions.length := by
    intro x hx
    rcases List.mem_iff_getElem.mp hx with ⟨i, hi, rfl⟩
    have := (hp.2.2.2.2.1 i hi).2
    rwa [List.getD_eq_getElem _ _ hi] at this
  rw [hrew, specGrid_sel_canon t rs hp]
  congr 1
  rw [is_done_range t hp, base_canon t hp,
    gathered_canon rs t.when_is_done t.actions.length hTpos hTbound]
  have hG : ∀ τ : Nat,
      ((rs.zip t.when_is_done).filter
        (fun p => decide (p.2 = τ + 1))).map (fun p => p.1) =
      (((List.range t.when_is_done.length).filter
        (fun i => decide (t.when_is_done.getD i 0 = τ + 1)))).map
        (fun i => rs.getD i (.fin 0)) := by
    intro τ
    rw [zip_as_range rs t.when_is_done hlen (d := .fin 0)]
    rw [List.map_filter, List.map_map]
    rfl
  have habs : ∀ τ : Nat,
      (((List.range t.when_is_done.length).filter
        (fun i => decide (τ < t.when_is_done.getD i 0))).filter
        (fun i => decide (t.when_is_done.getD i 0 = τ + 1))) =
      ((List.range t.when_is_done.length).filter
        (fun i => decide (t.when_is_done.getD i 0 = τ + 1))) := by
    intro τ
    rw [List.filter_filter]
    apply filter_and_absorb
    intro x hx hq
    have : t.when_is_done.getD x 0 = τ + 1 := by simpa using hq
    exact decide_eq_true (by omega)
  apply scatter_flatten_rows
  · intro τ hτ
    rw [count_true_map, hG τ, List.length_map,
      List.countP_eq_length_filter, habs τ]
  · intro τ hτ
    simp
  · intro τ hτ
    rw [hG τ, ← habs τ]
    rw [scatter_map_filter]
    apply List.map_eq_map_iff.mpr
    intro i hi
    by_cases hc : t.when_is_done.getD i 0 = τ + 1
    · have h1 : decide (t.when_is_done.getD i 0 = τ + 1) = true :=
        decide_eq_true hc
      rw [h1, if_pos rfl, if_pos hc.symm]
    · have h1 : decide (t.when_is_done.getD i 0 = τ + 1) = false :=
        decide_eq_false hc
      rw [h1]
      rw [if_neg (by simp), if_neg (fun hx => hc hx.symm)]

/-- Witness for claim C1: the reward distribution of the concrete batch
trajC equals the masked specification reward grid (rewards 10, 20, 30 land
on the terminal transitions of their own trajectories, -1 elsewhere). -/
theorem C1_reward_distribution_witness :
    Trajectories.toTransitions trajC = .ok trCl ∧
    trCl.rewards = some (maskSelect
      (specRewardGrid trajC [.fin 10, .fin 20, .fin 30]) (actMask trajC)) ∧
    maskSelect (specRewardGrid trajC [.fin 10, .fin 20, .fin 30])
      (actMask trajC) =
      [.fin (-1), .fin (-1), .fin 30, .fin 10, .fin (-1), .fin (-1),
        .fin 20] := by
  have h : Trajectories.toTransitions trajC = .ok trCl := rfl
  refine ⟨h, C1_reward_distribution trajC trCl _ h paddedBatch_trajC rfl
    (by decide), by decide⟩

omit [LinearOrderedField α] in
/-- Gather succeeds, returning the defaulted gather, when in range. -/
theorem gatherOne_some (row : List (FV α)) (i : Int) (hge : 0 ≤ i)
    (hlt : i.toNat < row.length) :
    gatherOne row i = some (gatherD row i) := by
  have h1 : gatherOne row i = some (row[i.toNat]) := by
    unfold gatherOne
    rw [if_neg (by omega), List.get?_eq_getElem?,
      List.getElem?_eq_getElem hlt]
  rw [h1]
  unfold gatherD
  rw [h1]
  rfl

omit [LinearOrderedField α] in
/-- Count of false entries of a pointwise boolean image. -/
theorem count_false_map (p : β → Bool) (l : List β) :
    ((l.map p).count false) = l.countP (fun x => !p x) := by
  induction l with
  | nil => rfl
  | cons x xs ih =>
      cases hx : p x <;> simp [List.count_cons, List.countP_cons, hx, ih]

omit [LinearOrderedField α] in
/-- Pointwise combination of two images of the same list. -/
theorem zipWith_map_same_fun (f : γ → X → Y) (g : β → γ) (h : β → X)
    (l : List β) :
    List.zipWith f (l.map g) (l.map h) = l.map (fun x => f (g x) (h x)) := by
  induction l with
  | nil => rfl
  | cons x l ih => simp [ih]

omit [LinearOrderedField α] in
/-- Projections of the master zip of five parallel lists of equal length. -/
theorem zip5_proj (S : List σ) (A : List Int) (N : List σ) (D : List Bool)
    (R : List (FV α)) (h1 : A.length = S.length) (h2 : N.length = S.length)
    (h3 : D.length = S.length) (h4 : R.length = S.length) :
    S = ((S.zip (A.zip (N.zip D))).zip R).map (fun m => m.1.1) ∧
    A = ((S.zip (A.zip (N.zip D))).zip R).map (fun m => m.1.2.1) ∧
    N = ((S.zip (A.zip (N.zip D))).zip R).map (fun m => m.1.2.2.1) ∧
    D = ((S.zip (A.zip (N.zip D))).zip R).map (fun m => m.1.2.2.2) ∧
    R = ((S.zip (A.zip (N.zip D))).zip R).map (fun m => m.2) := by
  have hlen : ((S.zip (A.zip (N.zip D))).zip R).length = S.length := by
    simp [List.length_zip, h1, h2, h3, h4]
  refine ⟨?_, ?_, ?_, ?_, ?_⟩ <;>
    apply List.ext_getElem (by simp [hlen, h1, h2, h3, h4]) <;>
    intro k hk1 hk2 <;>
    simp [List.getElem_zip]

/-- Evaluation of get_scores on a clean forward batch: no sink source
states, no padding actions, cached rewards, exit actions exactly at done
transitions, and in-range gather indices.  The returned scores are exactly
the specification residuals. -/
theorem get_scores_clean [DecidableEq σ] (o : SOps α)
    (pf pb : σ → List (FV α)) (logF : σ → FV α) (tr : Transitions σ α)
    (rews : List (FV α))
    (hbk : tr.is_backward = false)
    (hla : tr.actions.length = tr.states.length)
    (hln : tr.next_states.length = tr.states.length)
    (hld : tr.is_done.length = tr.states.length)
    (hrw : tr.rewards = some rews)
    (hlr : rews.length = tr.states.length)
    (hnosink : ∀ s ∈ tr.states, tr.env.isSink s = false)
    (hnopad : ∀ a ∈ tr.actions, ¬ a = -1)
    (halign : tr.actions.map
      (fun a => decide (a = (tr.env.n_actions : Int) - 1)) = tr.is_done)
    (hpfb : ∀ p ∈ tr.states.zip tr.actions,
      0 ≤ p.2 ∧ p.2.toNat < (pf p.1).length)
    (hpbb : ∀ p ∈ (tr.next_states.zip tr.actions).zip tr.is_done,
      p.2 = false → 0 ≤ p.1.2 ∧ p.1.2.toNat < (pb p.1.1).length) :
    ∃ u v, get_scores o pf pb logF tr =
      .ok (u, v, specResiduals o pf pb logF tr) := by
  obtain ⟨hS, hA, hN, hD, hR⟩ :=
    zip5_proj tr.states tr.actions tr.next_states tr.is_done rews
      hla hln hld hlr
  set Z := (tr.states.zip (tr.actions.zip (tr.next_states.zip
    tr.is_done))).zip rews with hZ
  have hmemSA : ∀ m ∈ Z, (m.1.1, m.1.2.1) ∈ tr.states.zip tr.actions := by
    intro m hm
    rcases List.mem_iff_getElem.mp hm with ⟨k, hk, rfl⟩
    have hkS : k < tr.states.length := by
      simp [hZ, List.length_zip, hla, hln, hld, hlr] at hk
      omega
    refine List.mem_iff_getElem.mpr ⟨k, by
      simp [List.length_zip, hla]
      omega, ?_⟩
    simp [hZ, List.getElem_zip]
  have hmemND : ∀ m ∈ Z,
      ((m.1.2.2.1, m.1.2.1), m.1.2.2.2) ∈
        (tr.next_states.zip tr.actions).zip tr.is_done := by
    intro m hm
    rcases List.mem_iff_getElem.mp hm with ⟨k, hk, rfl⟩
    have hkS : k < tr.states.length := by
      simp [hZ, List.length_zip, hla, hln, hld, hlr] at hk
      omega
    refine List.mem_iff_getElem.mpr ⟨k, by
      simp [List.length_zip, hla, hln, hld]
      omega, ?_⟩
    simp [hZ, List.getElem_zip]
  have halignZ : ∀ m ∈ Z,
      decide (m.1.2.1 = (tr.env.n_actions : Int) - 1) = m.1.2.2.2 := by
    apply List.map_eq_map_iff.mp
    calc Z.map (fun m => decide (m.1.2.1 = (tr.env.n_actions : Int) - 1))
        = (Z.map (fun m => m.1.2.1)).map
            (fun a => decide (a = (tr.env.n_actions : Int) - 1)) := by
          rw [List.map_map]
          rfl
      _ = tr.actions.map
            (fun a => decide (a = (tr.env.n_actions : Int) - 1)) := by
          rw [← hA]
      _ = tr.is_done := halign
      _ = Z.map (fun m => m.1.2.2.2) := hD
  have e1 : tr.states.filter (fun s => !tr.env.isSink s) = tr.states := by
    apply List.filter_eq_self.mpr
    intro s hs
    rw [hnosink s hs]
    rfl
  have e2 : tr.actions.filter (fun a => decide (a ≠ -1)) = tr.actions := by
    apply List.filter_eq_self.mpr
    intro a ha
    exact decide_eq_true (hnopad a ha)
  have hg1 : gatherList ((tr.states.map pf).map (logSoftmax o)) tr.actions
      = some (Z.map
        (fun m => gatherD (logSoftmax o (pf m.1.1)) m.1.2.1)) := by
    rw [List.map_map]
    conv_lhs => rw [hS, hA, List.map_map]
    refine gatherList_map _ _ _ Z (fun m hm => ?_)
    have hb := hpfb _ (hmemSA m hm)
    refine gatherOne_some _ _ hb.1 ?_
    simpa [logSoftmax] using hb.2
  have e3 : ((tr.next_states.zip tr.is_done).filter
      (fun p => !p.2)).map (fun p => p.1) =
      (Z.filter (fun m => !m.1.2.2.2)).map (fun m => m.1.2.2.1) := by
    conv_lhs => rw [hN, hD]
    rw [List.zip_map', List.map_filter, List.map_map]
    rfl
  have e4 : tr.actions.filter
      (fun a => decide (a ≠ (tr.env.n_actions : Int) - 1)) =
      (Z.filter (fun m => !m.1.2.2.2)).map (fun m => m.1.2.1) := by
    conv_lhs => rw [hA]
    rw [List.map_filter]
    congr 1
    apply List.filter_congr
    intro m hm
    simp only [Function.comp, ne_eq, decide_not]
    rw [halignZ m hm]
  have hg2 : gatherList
      ((((Z.filter (fun m => !m.1.2.2.2)).map
        (fun m => m.1.2.2.1)).map pb).map (logSoftmax o))
      ((Z.filter (fun m => !m.1.2.2.2)).map (fun m => m.1.2.1)) =
      some ((Z.filter (fun m => !m.1.2.2.2)).map
        (fun m => gatherD (logSoftmax o (pb m.1.2.2.1)) m.1.2.1)) := by
    rw [List.map_map, List.map_map]
    refine gatherList_map _ _ _ _ (fun m hm => ?_)
    have hmZ : m ∈ Z := List.mem_of_mem_filter hm
    have hmd : m.1.2.2.2 = false := by
      have := List.of_mem_filter hm
      simpa using this
    have hb := hpbb _ (hmemND m hmZ) hmd
    refine gatherOne_some _ _ hb.1 ?_
    simpa [logSoftmax] using hb.2
  have e5 : ((tr.is_done.zip (tr.states.map tr.env.isSink)).filter
      (fun p => !p.2)).map (fun p => p.1) = tr.is_done := by
    have hsm : tr.states.map tr.env.isSink =
        tr.states.map (fun _ => false) :=
      List.map_eq_map_iff.mpr hnosink
    rw [hsm]
    rw [List.filter_eq_self.mpr]
    · apply List.map_fst_zip
      simp [hld]
    · intro p hp
      have hp2 : p.2 ∈ tr.states.map (fun _ => false) :=
        (List.of_mem_zip hp).2
      rcases List.mem_map.mp hp2 with ⟨-, -, hval⟩
      rw [← hval]
      rfl
  have e6 : tr.is_done.count false =
      ((Z.filter (fun m => !m.1.2.2.2)).map
        (fun m => gatherD (logSoftmax o (pb m.1.2.2.1)) m.1.2.1)).length
      := by
    rw [List.length_map, hD, count_false_map,
      List.countP_eq_length_filter]
  have e6b : tr.is_done.count false =
      ((Z.filter (fun m => !m.1.2.2.2)).map
        (fun m => m.1.2.2.1)).length := by
    rw [List.length_map, hD, count_false_map,
      List.countP_eq_length_filter]
  unfold get_scores
  rw [hbk]
  simp only [Bool.false_eq_true, if_false, ite_false]
  rw [e1, e2,
    if_neg (show ¬(tr.states.length ≠ tr.actions.length) from
      fun hne => hne hla.symm),
    hg1]
  simp only []
  rw [if_neg (show ¬(tr.next_states.length ≠ tr.is_done.length) from
    fun hne => hne (by rw [hln, hld]))]
  rw [e3, e4, hg2]
  simp only []
  rw [if_neg (show ¬(tr.is_done.length ≠ tr.states.length) from
    fun hne => hne hld)]
  rw [e5]
  rw [if_neg (show ¬(tr.is_done.count false ≠ _) from
    fun hne => hne e6)]
  rw [if_neg (show ¬(tr.is_done.count false ≠ _) from fun hne => hne (by
    rw [e6b]
    simp [List.length_map]))]
  rw [hrw]
  simp only []
  rw [if_neg (show ¬(rews.length ≠ tr.states.length) from
    fun hne => hne hlr)]
  have hpreds : List.zipWith FV.add
      (Z.map (fun m => gatherD (logSoftmax o (pf m.1.1)) m.1.2.1))
      (tr.states.map logF) =
      Z.map (fun m =>
        FV.add (gatherD (logSoftmax o (pf m.1.1)) m.1.2.1)
          (logF m.1.1)) := by
    conv_lhs => rw [hS, List.map_map]
    rw [zipWith_map_same_fun]
    rfl
  rw [hpreds]
  rw [show (Z.map (fun m =>
      FV.add (gatherD (logSoftmax o (pf m.1.1)) m.1.2.1)
        (logF m.1.1))).map (fun _ => (FV.fin 0 : FV α)) =
      Z.map (fun _ => (FV.fin 0 : FV α)) from by rw [List.map_map]; rfl]
  rw [show tr.is_done.map (fun x => !x) =
      Z.map (fun m => !m.1.2.2.2) from by rw [hD, List.map_map]; rfl]
  rw [scatter_map_filter (fun m => !m.1.2.2.2)
    (fun m => gatherD (logSoftmax o (pb m.1.2.2.1)) m.1.2.1)
    (fun _ => (FV.fin 0 : FV α)) Z]
  rw [maskRow_map_map]
  rw [show ((Z.filter (fun m => !m.1.2.2.2)).map
      (fun m => m.1.2.2.1)).map logF =
      (Z.filter (fun m => !m.1.2.2.2)).map (fun m => logF m.1.2.2.1) from
    by rw [List.map_map]; rfl]
  rw [zipWith_map_same_fun]
  rw [show (Z.filter (fun m => !m.1.2.2.2)).map (fun m =>
      FV.add (if !m.1.2.2.2
        then gatherD (logSoftmax o (pb m.1.2.2.1)) m.1.2.1
        else FV.fin 0) (logF m.1.2.2.1)) =
      (Z.filter (fun m => !m.1.2.2.2)).map (fun m =>
        FV.add (gatherD (logSoftmax o (pb m.1.2.2.1)) m.1.2.1)
          (logF m.1.2.2.1)) from by
    apply List.map_eq_map_iff.mpr
    intro m hm
    have hmd : (!m.1.2.2.2) = true := (List.mem_filter.mp hm).2
    rw [if_pos hmd]]
  rw [scatter_map_filter (fun m => !m.1.2.2.2)
    (fun m => FV.add (gatherD (logSoftmax o (pb m.1.2.2.1)) m.1.2.1)
      (logF m.1.2.2.1))
    (fun m => if !m.1.2.2.2
      then gatherD (logSoftmax o (pb m.1.2.2.1)) m.1.2.1
      else FV.fin 0) Z]
  rw [show ((rews.zip (tr.states.map tr.env.isSink)).filter
      (fun p => !p.2)).map (fun p => p.1) = rews from by
    have hsm : tr.states.map tr.env.isSink =
        tr.states.map (fun _ => false) :=
      List.map_eq_map_iff.mpr hnosink
    rw [hsm]
    rw [List.filter_eq_self.mpr]
    · apply List.map_fst_zip
      simp [hlr]
    · intro p hp
      have hp2 : p.2 ∈ tr.states.map (fun _ => false) :=
        (List.of_mem_zip hp).2
      rcases List.mem_map.mp hp2 with ⟨-, -, hval⟩
      rw [← hval]
      rfl]
  rw [show maskRow rews tr.is_done =
      (Z.filter (fun m => m.1.2.2.2)).map (fun m => m.2) from by
    conv_lhs => rw [hR, hD]
    rw [maskRow_map_map]]
  rw [show ((Z.filter (fun m => m.1.2.2.2)).map (fun m => m.2)).map
      (FV.log o) =
      (Z.filter (fun m => m.1.2.2.2)).map (fun m => (m.2).log o) from by
    rw [List.map_map]
    rfl]
  rw [show tr.is_done = Z.map (fun m => m.1.2.2.2) from hD]
  rw [scatter_map_filter (fun m => m.1.2.2.2)
    (fun m => (m.2).log o)
    (fun m => if !m.1.2.2.2
      then FV.add (gatherD (logSoftmax o (pb m.1.2.2.1)) m.1.2.1)
        (logF m.1.2.2.1)
      else if !m.1.2.2.2
        then gatherD (logSoftmax o (pb m.1.2.2.1)) m.1.2.1
        else FV.fin 0) Z]
  rw [zipWith_map_same_fun]
  have hfinal : Z.map (fun m =>
      FV.sub (FV.add (gatherD (logSoftmax o (pf m.1.1)) m.1.2.1)
        (logF m.1.1))
        (if m.1.2.2.2 then (m.2).log o
          else if !m.1.2.2.2
            then FV.add (gatherD (logSoftmax o (pb m.1.2.2.1)) m.1.2.1)
              (logF m.1.2.2.1)
            else if !m.1.2.2.2
              then gatherD (logSoftmax o (pb m.1.2.2.1)) m.1.2.1
              else FV.fin 0)) =
      specResiduals o pf pb logF tr := by
    unfold specResiduals
    rw [hrw]
    simp only [Option.getD_some]
    rw [← hZ]
    apply List.map_eq_map_iff.mpr
    intro m hm
    by_cases hd : m.1.2.2.2 = true
    · simp only [hd, if_true, ite_true, Bool.not_true]
    · have hd2 : m.1.2.2.2 = false := by
        cases hx : m.1.2.2.2
        · rfl
        · exact absurd hx hd
      simp only [hd2, Bool.not_false, if_true, ite_true, Bool.false_eq_true,
        if_false, ite_false]
  rw [hfinal]
  exact ⟨_, _, rfl⟩

/-- C2: on a forward batch meeting the loss preconditions — matching
lengths, cached rewards, no sink source states, no padding actions, exit
actions exactly at the done transitions, in-range gather indices — and
whose mean squared residual is not NaN, the detailed-balance loss call
returns the mean over all transitions of the squared residual
pred - target, where pred is the log-softmax of the forward logits at the
state gathered at the action plus the log-flow at the state, and the
target is the log reward of the next state for terminal transitions and
the gathered backward log-softmax plus the log-flow at the next state
otherwise. -/
theorem C2_db_loss [DecidableEq σ] (o : SOps α)
    (pf pb : σ → List (FV α)) (logF : σ → FV α) (tr : Transitions σ α)
    (rews : List (FV α))
    (hbk : tr.is_backward = false)
    (hla : tr.actions.length = tr.states.length)
    (hln : tr.next_states.length = tr.states.length)
    (hld : tr.is_done.length = tr.states.length)
    (hrw : tr.rewards = some rews)
    (hlr : rews.length = tr.states.length)
    (hnosink : ∀ s ∈ tr.states, tr.env.isSink s = false)
    (hnopad : ∀ a ∈ tr.actions, ¬ a = -1)
    (halign : tr.actions.map
      (fun a => decide (a = (tr.env.n_actions : Int) - 1)) = tr.is_done)
    (hpfb : ∀ p ∈ tr.states.zip tr.actions,
      0 ≤ p.2 ∧ p.2.toNat < (pf p.1).length)
    (hpbb : ∀ p ∈ (tr.next_states.zip tr.actions).zip tr.is_done,
      p.2 = false → 0 ≤ p.1.2 ∧ p.1.2.toNat < (pb p.1.1).length)
    (hnn : (FVmean ((specResiduals o pf pb logF tr).map FV.sq)).isNaN
      = false) :
    dbCall o pf pb logF tr =
      .ok (FVmean ((specResiduals o pf pb logF tr).map FV.sq)) := by
  obtain ⟨u, v, heq⟩ := get_scores_clean o pf pb logF tr rews hbk hla hln
    hld hrw hlr hnosink hnopad halign hpfb hpbb
  unfold dbCall
  rw [heq]
  simp only [hnn, Bool.false_eq_true, if_false, ite_false]

/-- C2 witness: the concrete transitions batch derived from the
three-trajectory fixture satisfies every precondition and the call returns
the mean squared specification residual. -/
theorem C2_db_loss_witness :
    trCl.is_backward = false ∧
    dbCall opsC pfC pbC logFC trCl =
      .ok (FVmean ((specResiduals opsC pfC pbC logFC trCl).map FV.sq)) := by
  refine ⟨rfl, ?_⟩
  exact C2_db_loss opsC pfC pbC logFC trCl
    [.fin (-1), .fin (-1), .fin 30, .fin 10, .fin (-1), .fin (-1), .fin 20]
    rfl rfl rfl rfl rfl rfl (by decide) (by decide) (by decide) (by decide)
    (by decide) (by decide)

/-- C6: the loss raises the explicit error "Backward transitions are not
supported" on a backward batch; it raises the explicit error "Something
wrong happening with log_pf evaluations" when the count of non-sink states
differs from the count of non-padding actions; and on a clean forward
batch passing both checks it returns scores. -/
theorem C6_precondition_errors [DecidableEq σ] (o : SOps α)
    (pf pb : σ → List (FV α)) (logF : σ → FV α) (tr : Transitions σ α) :
    (tr.is_backward = true →
      get_scores o pf pb logF tr =
        .error "Backward transitions are not supported") ∧
    (tr.is_backward = false →
      (tr.states.filter (fun s => !tr.env.isSink s)).length ≠
        (tr.actions.filter (fun a => decide (a ≠ -1))).length →
      get_scores o pf pb logF tr =
        .error "Something wrong happening with log_pf evaluations") ∧
    (∀ rews : List (FV α),
      tr.is_backward = false →
      tr.actions.length = tr.states.length →
      tr.next_states.length = tr.states.length →
      tr.is_done.length = tr.states.length →
      tr.rewards = some rews →
      rews.length = tr.states.length →
      (∀ s ∈ tr.states, tr.env.isSink s = false) →
      (∀ a ∈ tr.actions, ¬ a = -1) →
      tr.actions.map
        (fun a => decide (a = (tr.env.n_actions : Int) - 1)) =
        tr.is_done →
      (∀ p ∈ tr.states.zip tr.actions,
        0 ≤ p.2 ∧ p.2.toNat < (pf p.1).length) →
      (∀ p ∈ (tr.next_states.zip tr.actions).zip tr.is_done,
        p.2 = false → 0 ≤ p.1.2 ∧ p.1.2.toNat < (pb p.1.1).length) →
      ∃ res, get_scores o pf pb logF tr = .ok res) := by
  refine ⟨?_, ?_, ?_⟩
  · intro hb
    unfold get_scores
    rw [hb]
    rw [if_pos rfl]
  · intro hb hne
    unfold get_scores
    rw [hb]
    simp only [Bool.false_eq_true, if_false, ite_false]
    rw [if_pos hne]
  · intro rews hbk hla hln hld hrw hlr hnosink hnopad halign hpfb hpbb
    obtain ⟨u, v, heq⟩ := get_scores_clean o pf pb logF tr rews hbk hla
      hln hld hrw hlr hnosink hnopad halign hpfb hpbb
    exact ⟨_, heq⟩

/-- C6 witness: the backward fixture is rejected with the first error, the
count-mismatch fixture is rejected with the second error, and the clean
fixture yields a returned score triple. -/
theorem C6_precondition_errors_witness :
    (trBk.is_backward = true ∧
      get_scores opsC pfC pbC logFC trBk =
        .error "Backward transitions are not supported") ∧
    ((trMis.states.filter (fun s => !trMis.env.isSink s)).length ≠
        (trMis.actions.filter (fun a => decide (a ≠ -1))).length ∧
      get_scores opsC pfC pbC logFC trMis =
        .error "Something wrong happening with log_pf evaluations") ∧
    (∃ res, get_scores opsC pfC pbC logFC trCl = .ok res) := by
  refine ⟨⟨rfl, ?_⟩, ⟨by decide, ?_⟩, ?_⟩
  · exact (C6_precondition_errors opsC pfC pbC logFC trBk).1 rfl
  · exact (C6_precondition_errors opsC pfC pbC logFC trMis).2.1 rfl
      (by decide)
  · exact (C6_precondition_errors opsC pfC pbC logFC trCl).2.2
      [.fin (-1), .fin (-1), .fin 30, .fin 10, .fin (-1), .fin (-1),
        .fin 20]
      rfl rfl rfl rfl rfl rfl (by decide) (by decide) (by decide)
      (by decide) (by decide)

/-- C7 counterexample: a terminal transition whose cached reward is zero
makes the target -infinity and the mean squared residual +infinity, which
is not NaN, so the call returns .ok +infinity silently instead of raising
an error. -/
theorem C7_nan_guard_counterexample :
    dbCall opsC pfC pbC logFC trZero = .ok FV.pinf ∧
    isNaNofOk (dbCall opsC pfC pbC logFC trZero) = false :=
  ⟨rfl, rfl⟩

/-- C7 (amended): the loss call never returns a NaN value — an error
result carries no value and a returned loss always has isNaN false — and
whenever the computed mean squared residual is NaN the call raises the
explicit error "loss is nan" with no recovery; a zero terminal reward,
however, yields a -infinity target and a returned +infinity loss, not an
error. -/
theorem C7_nan_guard [DecidableEq σ] :
    (∀ (o : SOps α) (pf pb : σ → List (FV α)) (logF : σ → FV α)
      (tr : Transitions σ α),
      isNaNofOk (dbCall o pf pb logF tr) = false) ∧
    (∀ (o : SOps α) (pf pb : σ → List (FV α)) (logF : σ → FV α)
      (tr : Transitions σ α) (u v scores : List (FV α)),
      get_scores o pf pb logF tr = .ok (u, v, scores) →
      (FVmean (scores.map FV.sq)).isNaN = true →
      dbCall o pf pb logF tr = .error "loss is nan") := by
  constructor
  · intro o pf pb logF tr
    unfold dbCall
    cases h : get_scores o pf pb logF tr with
    | error e => rfl
    | ok t =>
      obtain ⟨u, v, s⟩ := t
      cases hn : (FVmean (s.map FV.sq)).isNaN <;>
        simp [isNaNofOk, hn]
  · intro o pf pb logF tr u v scores heq hnan
    unfold dbCall
    rw [heq]
    simp only [hnan, if_true, ite_true]

/-- C7 witness: the negative-reward fixture has NaN scores, its call
raises "loss is nan", and the first conjunct applies to it. -/
theorem C7_nan_guard_witness :
    isNaNofOk (dbCall opsC pfC pbC logFC trNeg) = false ∧
    get_scores opsC pfC pbC logFC trNeg =
      .ok ([FV.fin (1 / 2)], [FV.fin 0], [FV.nan]) ∧
    (FVmean (([FV.nan] : List (FV Q)).map FV.sq)).isNaN = true ∧
    dbCall opsC pfC pbC logFC trNeg = .error "loss is nan" := by
  refine ⟨C7_nan_guard.1 opsC pfC pbC logFC trNeg, rfl, by decide, ?_⟩
  exact C7_nan_guard.2 opsC pfC pbC logFC trNeg _ _ _ rfl (by decide)

end GFN
